import Mathlib

/-!
The image buffer transformation engine of daisy-ppm-pgm.

A shallow embedding of `src/daisy.cpp`: the `image` buffer, the offset
function `image_point`, the region check `validate_user_area` and the four
transforms `flip_horizontally`, `flip_vertically`, `cut_area`, `zoom_in`.

Conventions of the embedding.

* `uint` values are natural numbers below `2^32`; every `uint` operation of
  the source is followed by an explicit reduction `u32` (modulo `2^32`).
  `int` values are integers; converting an `int` to `uint` is `toU32`.
* The heap array `data` is a list of samples.  Reading or writing an index
  outside the array is undefined behaviour in the source; the embedding
  returns `none` there.  `none` is also the result of a signed overflow and
  of a loop that never terminates.
* A `for` loop that counts `0, 1, ..., n-1` is `forLoop n body`.
-/

namespace Daisy

/-! ## Machine arithmetic -/

/-- Reduction of a natural number to the range of `uint` (32 bits). -/
def u32 (n : Nat) : Nat := n % 2 ^ 32

/-- Subtraction of two `uint` values, wrapping below zero. -/
def u32_sub (a b : Nat) : Nat := (a + 2 ^ 32 - b) % 2 ^ 32

/-- Conversion of an `int` to `uint` (the value modulo `2^32`). -/
def toU32 (z : Int) : Nat := (z % 2 ^ 32).toNat

/-- Subtraction of two `int` values; an overflow of the 32-bit signed range is
undefined behaviour and gives no result. -/
def i32_sub (a b : Int) : Option Int :=
  if -(2 ^ 31) ≤ a - b ∧ a - b < 2 ^ 31 then some (a - b) else none

/-- The range of a 32-bit signed `int`. -/
def is_i32 (z : Int) : Prop := -(2 ^ 31) ≤ z ∧ z < 2 ^ 31

instance (z : Int) : Decidable (is_i32 z) := by unfold is_i32; infer_instance

/-! ## Data model (daisy.cpp, lines 9-28) -/

def MAXIMUM_IMAGE_WIDTH : Nat := 500

def MAXIMUM_IMAGE_HEIGHT : Nat := 500

/-- The `image` struct; `data` stands for the heap array behind the pointer. -/
structure image where
  width : Nat
  height : Nat
  colors_number : Nat
  max_color_value : Nat
  data : List Nat
deriving DecidableEq, Repr

structure point2d where
  x : Int
  y : Int
deriving DecidableEq, Repr

structure area2d where
  upper_left : point2d
  lower_right : point2d
deriving DecidableEq, Repr

/-- The sample array has exactly `width * height * colors_number` entries. -/
def well_formed (img : image) : Prop :=
  img.data.length = img.width * img.height * img.colors_number

instance (img : image) : Decidable (well_formed img) := by
  unfold well_formed; infer_instance

/-- The shape the loader guarantees: positive dimensions of at most 500 and
one or three channels. -/
def valid_shape (img : image) : Prop :=
  0 < img.width ∧ img.width ≤ MAXIMUM_IMAGE_WIDTH ∧
  0 < img.height ∧ img.height ≤ MAXIMUM_IMAGE_HEIGHT ∧
  (img.colors_number = 1 ∨ img.colors_number = 3)

instance (img : image) : Decidable (valid_shape img) := by
  unfold valid_shape; infer_instance

/-- The coordinates of a region are 32-bit signed integers. -/
def area_typed (area : area2d) : Prop :=
  is_i32 area.upper_left.x ∧ is_i32 area.upper_left.y ∧
  is_i32 area.lower_right.x ∧ is_i32 area.lower_right.y

instance (area : area2d) : Decidable (area_typed area) := by
  unfold area_typed; infer_instance

/-! ## Loops -/

/-- The loop `for (uint i = 0; i < n; ++i) body`, threading the state and
stopping at the first iteration without a result. -/
def forLoop {σ : Type} (n : Nat) (body : Nat → σ → Option σ) (s : σ) : Option σ :=
  (List.range n).foldlM (fun acc i => body i acc) s

/-- The loop `for (ushort i = 0; i < n; ++i) body` with a `uint` bound `n`:
the counter wraps to zero after 65535, so a bound above 65535 is never
reached and the loop has no result. -/
def forLoopU16 {σ : Type} (n : Nat) (body : Nat → σ → Option σ) (s : σ) : Option σ :=
  if n ≤ 65535 then forLoop n body s else none

/-- The index triples visited by three nested loops, in order. -/
def triples (n m k : Nat) : List (Nat × Nat × Nat) :=
  List.product (List.range n) (List.product (List.range m) (List.range k))

/-- The indices visited by the five nested loops of `zoom_in`, in order: the
triple `(row, col, depth)` and the pair `(x, y)`. -/
def quints (n m k z : Nat) : List ((Nat × Nat × Nat) × (Nat × Nat)) :=
  List.product (triples n m k) (List.product (List.range z) (List.range z))

/-! ## Helper functions (daisy.cpp, lines 168-201) -/

/-- Embeds `validate_zoom_factor`; the two products are `uint` products. -/
def validate_zoom_factor (img : image) (zoom_factor : Nat) : Bool :=
  if zoom_factor ≤ 0 then
    false
  else
    let new_width := u32 (zoom_factor * img.width)
    let new_height := u32 (zoom_factor * img.height)
    if new_width > MAXIMUM_IMAGE_WIDTH ∨ new_height > MAXIMUM_IMAGE_HEIGHT then
      false
    else
      true

/-- Embeds `validate_user_area`; the comparisons of an `int` with a `uint`
convert the `int` operand to `uint`. -/
def validate_user_area (img : image) (area : area2d) : Bool :=
  if area.lower_right.x < 0 ∨ toU32 area.lower_right.x > img.width
      ∨ area.upper_left.x < 0 ∨ toU32 area.upper_left.y > img.height then
    false
  else
    true

/-- Embeds `image_point`. -/
def image_point (row col depth : Nat) (img : image) : Nat :=
  u32 (u32 (u32 (u32 (row * img.width) * img.colors_number)
    + u32 (col * img.colors_number)) + depth)

/-- Embeds `swap` applied to the two array cells `data[src]` and `data[dst]`:
the cells are exchanged when their values differ. -/
def swap (data : List Nat) (src dst : Nat) : Option (List Nat) :=
  match data[src]?, data[dst]? with
  | some a, some b =>
    if a ≠ b then some ((data.set dst a).set src b) else some data
  | _, _ => none

/-- Embeds `update_image_data`; the image and its array are never null here. -/
def update_image_data (img : image) (new_data : List Nat) (width height : Nat) : image :=
  { img with width := width, height := height, data := new_data }

/-- The assignment `new_area[dst] = data[src]`. -/
def copy_sample (data : List Nat) (src dst : Nat) (new_area : List Nat) : Option (List Nat) :=
  match data[src]? with
  | some v => if dst < new_area.length then some (new_area.set dst v) else none
  | none => none

/-! ## Main operations (daisy.cpp, lines 207-295) -/

/-- Embeds `flip_horizontally`. -/
def flip_horizontally (img : image) : Option image :=
  (forLoop img.height (fun row data =>
    forLoop (img.width / 2) (fun col data =>
      forLoop img.colors_number (fun depth data =>
        let src_point := image_point row col depth img
        let dst_point := image_point row (u32_sub (u32_sub img.width col) 1) depth img
        swap data src_point dst_point) data) data) img.data).map
    (fun data => { img with data := data })

/-- Embeds `flip_vertically`. -/
def flip_vertically (img : image) : Option image :=
  (forLoop (img.height / 2) (fun row data =>
    forLoop img.width (fun col data =>
      forLoop img.colors_number (fun depth data =>
        let src_point := image_point row col depth img
        let dst_point := image_point (u32_sub (u32_sub img.height row) 1) col depth img
        swap data src_point dst_point) data) data) img.data).map
    (fun data => { img with data := data })

/-- The copy loop of `cut_area` (the code after the early return).  The fresh
array `new uint[n]` holds unspecified values; it is modelled as `n` zeros. -/
def cut_area_copy (img : image) (area : area2d) : Option image :=
  (i32_sub area.lower_right.x area.upper_left.x).bind fun dx =>
  (i32_sub area.lower_right.y area.upper_left.y).bind fun dy =>
    let columns_number := toU32 dx
    let rows_number := toU32 dy
    let new_area := List.replicate
      (u32 (u32 (columns_number * rows_number) * img.colors_number)) 0
    (forLoop rows_number (fun row new_area =>
      forLoop columns_number (fun col new_area =>
        forLoop img.colors_number (fun depth new_area =>
          let dst_point := u32 (u32 (u32 (u32 (row * columns_number) * img.colors_number)
            + u32 (col * img.colors_number)) + depth)
          let src_point := image_point (u32 (toU32 area.upper_left.y + row))
            (u32 (toU32 area.upper_left.x + col)) depth img
          copy_sample img.data src_point dst_point new_area) new_area) new_area) new_area).map
      (fun new_area => update_image_data img new_area columns_number rows_number)

/-- Embeds `cut_area`. -/
def cut_area (img : image) (area : area2d) : Option image :=
  if area.upper_left.x = 0 ∧ area.upper_left.y = 0
      ∧ toU32 area.lower_right.x = img.width ∧ toU32 area.lower_right.y = img.height then
    some img
  else
    cut_area_copy img area

/-- Embeds `zoom_in`.  The counters `x` and `y` are `ushort`; the fresh array
is modelled as zeros, as in `cut_area_copy`. -/
def zoom_in (img : image) (area : area2d) (zoom_factor : Nat) : Option image :=
  (i32_sub area.lower_right.x area.upper_left.x).bind fun dx =>
  (i32_sub area.lower_right.y area.upper_left.y).bind fun dy =>
    let columns_number := toU32 dx
    let rows_number := toU32 dy
    let new_area := List.replicate
      (u32 (u32 (u32 (u32 (columns_number * zoom_factor) * rows_number) * zoom_factor)
        * img.colors_number)) 0
    (forLoop rows_number (fun row new_area =>
      forLoop columns_number (fun col new_area =>
        forLoop img.colors_number (fun depth new_area =>
          let src_index := image_point row col depth img
          forLoopU16 zoom_factor (fun x new_area =>
            forLoopU16 zoom_factor (fun y new_area =>
              let dst_index := u32 (u32 (u32 (u32 (u32 (u32 (u32 (row * zoom_factor) + y)
                  * columns_number) * zoom_factor) * img.colors_number)
                + u32 (u32 (u32 (col * zoom_factor) + x) * img.colors_number)) + depth)
              copy_sample img.data src_index dst_index new_area) new_area) new_area)
          new_area) new_area) new_area).map
      (fun new_area => update_image_data img new_area
        (u32 (columns_number * zoom_factor)) (u32 (rows_number * zoom_factor)))

/-- The sample of a buffer at `(row, col, depth)`: the read
`img->data[image_point(row, col, depth, img)]`. -/
def sample (img : image) (row col depth : Nat) : Option Nat :=
  img.data[image_point row col depth img]?

/-- The number of samples fits the `uint` arithmetic of the offsets. -/
def fits (img : image) : Prop :=
  img.width * img.height * img.colors_number < 2 ^ 32

/-- The limits the loader puts on a buffer, an empty buffer included: at most
500 by 500 pixels of one or three channels. -/
def within_limits (img : image) : Prop :=
  img.width ≤ MAXIMUM_IMAGE_WIDTH ∧ img.height ≤ MAXIMUM_IMAGE_HEIGHT ∧
  (img.colors_number = 1 ∨ img.colors_number = 3)

instance (img : image) : Decidable (within_limits img) := by
  unfold within_limits; infer_instance

/-- The pairs `(src_point, dst_point)` computed by the iterations of
`flip_horizontally`, in the order of the loops. -/
def flip_horizontally_swaps (img : image) : List (Nat × Nat) :=
  (triples img.height (img.width / 2) img.colors_number).map fun t =>
    (image_point t.1 t.2.1 t.2.2 img,
      image_point t.1 (u32_sub (u32_sub img.width t.2.1) 1) t.2.2 img)

/-- The pairs `(src_point, dst_point)` computed by the iterations of
`flip_vertically`, in the order of the loops. -/
def flip_vertically_swaps (img : image) : List (Nat × Nat) :=
  (triples (img.height / 2) img.width img.colors_number).map fun t =>
    (image_point t.1 t.2.1 t.2.2 img,
      image_point (u32_sub (u32_sub img.height t.1) 1) t.2.1 t.2.2 img)

/-- Every sample of `out` is a sample of `img`, so a bound `max_color_value`
on the samples of `img` is a bound on the samples of `out`. -/
def samples_from (out img : image) : Prop :=
  (∀ v ∈ out.data, v ∈ img.data) ∧
  ((∀ v ∈ img.data, v ≤ img.max_color_value) → ∀ v ∈ out.data, v ≤ out.max_color_value)

/-- Two swaps have no offset in common. -/
def disjoint_swaps (p q : Nat × Nat) : Prop :=
  p.1 ≠ q.1 ∧ p.1 ≠ q.2 ∧ p.2 ≠ q.1 ∧ p.2 ≠ q.2

/-! ## Concrete buffers used by the scenarios of the specification -/

/-- The 4x4 grayscale buffer with samples `0..15`. -/
def gray4x4 : image :=
  { width := 4, height := 4, colors_number := 1, max_color_value := 255,
    data := List.range 16 }

/-- The 2x2 grayscale buffer `[5,6,9,10]`. -/
def gray2x2 : image :=
  { width := 2, height := 2, colors_number := 1, max_color_value := 255,
    data := [5, 6, 9, 10] }

/-- The 4x4 grayscale buffer in which each sample of `[5,6,9,10]` fills a
2x2 block. -/
def zoomed4x4 : image :=
  { width := 4, height := 4, colors_number := 1, max_color_value := 255,
    data := [5, 5, 6, 6, 5, 5, 6, 6, 9, 9, 10, 10, 9, 9, 10, 10] }

/-- The 4x4 grayscale buffer `0..15` with every row reversed. -/
def mirrored4x4 : image :=
  { width := 4, height := 4, colors_number := 1, max_color_value := 255,
    data := [3, 2, 1, 0, 7, 6, 5, 4, 11, 10, 9, 8, 15, 14, 13, 12] }

/-- The region `(1,1)-(3,3)`. -/
def area_1133 : area2d := { upper_left := ⟨1, 1⟩, lower_right := ⟨3, 3⟩ }

/-- The region `(0,0)-(4,4)`, the full bounds of the 4x4 buffer. -/
def area_0044 : area2d := { upper_left := ⟨0, 0⟩, lower_right := ⟨4, 4⟩ }

/-- The region `(0,0)-(2,2)`, the full bounds of the 2x2 buffer. -/
def area_0022 : area2d := { upper_left := ⟨0, 0⟩, lower_right := ⟨2, 2⟩ }

/-- The 4x4 grayscale buffer `0..15` turned by half a turn. -/
def turned4x4 : image :=
  { width := 4, height := 4, colors_number := 1, max_color_value := 255,
    data := [15, 14, 13, 12, 11, 10, 9, 8, 7, 6, 5, 4, 3, 2, 1, 0] }

/-- The region `(0,-1)-(4,4)`, whose upper left point lies above the buffer. -/
def area_above : area2d := { upper_left := ⟨0, -1⟩, lower_right := ⟨4, 4⟩ }

/-- The region `(0,0)-(4,5)`, one row higher than the 4x4 buffer. -/
def area_0045 : area2d := { upper_left := ⟨0, 0⟩, lower_right := ⟨4, 5⟩ }

/-- The region `(1,1)-(1,3)`, with no columns. -/
def area_1113 : area2d := { upper_left := ⟨1, 1⟩, lower_right := ⟨1, 3⟩ }

/-! ## Arithmetic facts -/

theorem u32_of_lt {n : Nat} (h : n < 2 ^ 32) : u32 n = n := Nat.mod_eq_of_lt h

theorem u32_lt (n : Nat) : u32 n < 2 ^ 32 := Nat.mod_lt _ (by norm_num)

theorem u32_mul_left (a b : Nat) : u32 (u32 a * b) = u32 (a * b) := by
  unfold u32; exact Nat.mod_mul_mod

theorem u32_add_both (a b : Nat) : u32 (u32 a + u32 b) = u32 (a + b) := by
  unfold u32; exact (Nat.add_mod a b (2 ^ 32)).symm

theorem u32_add_left (a b : Nat) : u32 (u32 a + b) = u32 (a + b) := by
  unfold u32; exact Nat.mod_add_mod a (2 ^ 32) b

theorem u32_add_right (a b : Nat) : u32 (a + u32 b) = u32 (a + b) := by
  unfold u32; exact Nat.add_mod_mod a b (2 ^ 32)

theorem u32_sub_of_le {a b : Nat} (hb : b ≤ a) (ha : a < 2 ^ 32) : u32_sub a b = a - b := by
  unfold u32_sub; omega

theorem toU32_of_nonneg {z : Int} (h0 : 0 ≤ z) (h1 : z < 2 ^ 32) : toU32 z = z.toNat := by
  unfold toU32; rw [Int.emod_eq_of_lt h0 h1]

theorem toU32_natCast {n : Nat} (h : n < 2 ^ 32) : toU32 (n : Int) = n := by
  rw [toU32_of_nonneg (by omega) (by exact_mod_cast h)]; simp

/-- The offset computed by `image_point` is the exact offset reduced once. -/
theorem image_point_eq_u32 (row col depth : Nat) (img : image) :
    image_point row col depth img
      = u32 (row * img.width * img.colors_number + col * img.colors_number + depth) := by
  unfold image_point
  rw [u32_mul_left, u32_add_both, u32_add_left]

/-- The exact offset of a sample inside a `w` by `h` buffer with `cn` channels
is below the number of samples. -/
theorem offset_lt {w h cn r c d : Nat} (hr : r < h) (hc : c < w) (hd : d < cn) :
    r * w * cn + c * cn + d < w * h * cn := by
  have h1 : r * w + c + 1 ≤ w * h := by nlinarith
  have h2 : (r * w + c + 1) * cn ≤ w * h * cn := Nat.mul_le_mul_right _ h1
  have h3 : (r * w + c + 1) * cn = r * w * cn + c * cn + cn := by ring
  omega

theorem offset_decode {n a b : Nat} (hb : b < n) :
    (a * n + b) % n = b ∧ (a * n + b) / n = a := by
  have hn : 0 < n := by omega
  constructor
  · rw [Nat.add_comm, Nat.add_mul_mod_self_right]; exact Nat.mod_eq_of_lt hb
  · rw [Nat.add_comm, Nat.add_mul_div_right _ _ hn, Nat.div_eq_of_lt hb]; simp

/-- The exact offset determines row, column and channel. -/
theorem offset_inj {w cn r c d r2 c2 d2 : Nat} (hc : c < w) (hd : d < cn)
    (hc2 : c2 < w) (hd2 : d2 < cn)
    (h : r * w * cn + c * cn + d = r2 * w * cn + c2 * cn + d2) :
    r = r2 ∧ c = c2 ∧ d = d2 := by
  have e1 : r * w * cn + c * cn + d = (r * w + c) * cn + d := by ring
  have e2 : r2 * w * cn + c2 * cn + d2 = (r2 * w + c2) * cn + d2 := by ring
  rw [e1, e2] at h
  have hd3 : d = d2 := by
    have := congrArg (· % cn) h
    simpa [(offset_decode hd).1, (offset_decode hd2).1] using this
  have hq : r * w + c = r2 * w + c2 := by
    have := congrArg (· / cn) h
    simpa [(offset_decode hd).2, (offset_decode hd2).2] using this
  have hc3 : c = c2 := by
    have := congrArg (· % w) hq
    simpa [(offset_decode hc).1, (offset_decode hc2).1] using this
  have hr3 : r = r2 := by
    have := congrArg (· / w) hq
    simpa [(offset_decode hc).2, (offset_decode hc2).2] using this
  exact ⟨hr3, hc3, hd3⟩

/-! ## Loops as folds over index lists -/

theorem mem_triples {n m k : Nat} {t : Nat × Nat × Nat} :
    t ∈ triples n m k ↔ t.1 < n ∧ t.2.1 < m ∧ t.2.2 < k := by
  obtain ⟨a, b, c⟩ := t
  simp [triples, List.mem_product]

theorem nodup_triples (n m k : Nat) : (triples n m k).Nodup :=
  List.Nodup.product (List.nodup_range n)
    (List.Nodup.product (List.nodup_range m) (List.nodup_range k))

theorem foldlM_flatMap {α β σ : Type} (g : α → List β)
    (f : σ → β → Option σ) (l : List α) :
    ∀ s : σ, (l.flatMap g).foldlM f s = l.foldlM (fun acc a => (g a).foldlM f acc) s := by
  induction l with
  | nil => intro s; rfl
  | cons a l ih =>
    intro s
    rw [List.flatMap_cons, List.foldlM_append, List.foldlM_cons]
    cases h : (g a).foldlM f s with
    | none => rfl
    | some s1 => exact ih s1

/-- Three nested `for` loops are one fold over the index triples. -/
theorem forLoop3_eq {σ : Type} (n m k : Nat) (f : Nat → Nat → Nat → σ → Option σ) (s : σ) :
    forLoop n (fun i s => forLoop m (fun j s => forLoop k (fun d s => f i j d s) s) s) s
      = (triples n m k).foldlM (fun acc t => f t.1 t.2.1 t.2.2 acc) s := by
  unfold forLoop triples List.product
  simp only [foldlM_flatMap, List.foldlM_map]

theorem mem_quints {n m k z : Nat} {q : (Nat × Nat × Nat) × (Nat × Nat)} :
    q ∈ quints n m k z ↔
      q.1.1 < n ∧ q.1.2.1 < m ∧ q.1.2.2 < k ∧ q.2.1 < z ∧ q.2.2 < z := by
  obtain ⟨t, x, y⟩ := q
  simp [quints, List.mem_product, mem_triples, and_assoc]

/-- Five nested `for` loops are one fold over the index tuples. -/
theorem forLoop5_eq {σ : Type} (n m k z : Nat)
    (f : Nat → Nat → Nat → Nat → Nat → σ → Option σ) (s : σ) :
    forLoop n (fun i s => forLoop m (fun j s => forLoop k (fun d s =>
        forLoop z (fun x s => forLoop z (fun y s => f i j d x y s) s) s) s) s) s
      = (quints n m k z).foldlM (fun acc q => f q.1.1 q.1.2.1 q.1.2.2 q.2.1 q.2.2 acc) s := by
  rw [forLoop3_eq]
  unfold forLoop quints List.product
  simp only [foldlM_flatMap, List.foldlM_map]

/-! ## Sequences of swaps and of copies -/

/-- One in-bounds `swap` exchanges the two cells and leaves the others. -/
theorem swap_spec (data : List Nat) (src dst : Nat)
    (hs : src < data.length) (hd : dst < data.length) :
    ∃ out, swap data src dst = some out ∧ out.length = data.length ∧
      out[src]? = data[dst]? ∧ out[dst]? = data[src]? ∧
      ∀ k, k ≠ src → k ≠ dst → out[k]? = data[k]? := by
  unfold swap
  rw [List.getElem?_eq_getElem hs, List.getElem?_eq_getElem hd]
  by_cases hab : data[src] = data[dst]
  · refine ⟨data, by simp [hab], rfl, ?_, ?_, fun _ _ _ => rfl⟩
    · rw [List.getElem?_eq_getElem hs, hab]
    · rw [List.getElem?_eq_getElem hd, hab]
  · have hne : src ≠ dst := by
      intro h; subst h; exact hab rfl
    refine ⟨(data.set dst data[src]).set src data[dst], by simp [hab], by simp, ?_, ?_, ?_⟩
    · rw [List.getElem?_set_self (by simpa using hs)]
    · rw [List.getElem?_set_ne hne, List.getElem?_set_self hd]
    · intro k h1 h2
      rw [List.getElem?_set_ne (Ne.symm h1), List.getElem?_set_ne (Ne.symm h2)]

/-- A sequence of in-bounds swaps over pairwise disjoint pairs of cells
exchanges every pair and leaves every other cell. -/
theorem swaps_spec {α : Type} (src dst : α → Nat) (ts : List α) :
    ∀ data : List Nat,
    (∀ t ∈ ts, src t < data.length ∧ dst t < data.length) →
    ts.Pairwise (fun a b => src a ≠ src b ∧ src a ≠ dst b ∧ dst a ≠ src b ∧ dst a ≠ dst b) →
    ∃ out, ts.foldlM (fun acc t => swap acc (src t) (dst t)) data = some out ∧
      out.length = data.length ∧
      (∀ t ∈ ts, out[src t]? = data[dst t]? ∧ out[dst t]? = data[src t]?) ∧
      (∀ k, (∀ t ∈ ts, k ≠ src t ∧ k ≠ dst t) → out[k]? = data[k]?) := by
  induction ts with
  | nil =>
    intro data _ _
    exact ⟨data, rfl, rfl, by simp, fun _ _ => rfl⟩
  | cons t ts ih =>
    intro data hb hp
    obtain ⟨hs, hd⟩ := hb t (List.mem_cons_self _ _)
    obtain ⟨d1, e1, l1, a1, b1, c1⟩ := swap_spec data (src t) (dst t) hs hd
    rw [List.pairwise_cons] at hp
    obtain ⟨hhead, htail⟩ := hp
    obtain ⟨out, e2, l2, a2, c2⟩ := ih d1
      (fun u hu => by rw [l1]; exact hb u (List.mem_cons_of_mem _ hu)) htail
    refine ⟨out, ?_, by rw [l2, l1], ?_, ?_⟩
    · rw [List.foldlM_cons, e1]; exact e2
    · intro u hu
      rcases List.mem_cons.1 hu with rfl | hu
      · constructor
        · rw [c2 _ (fun v hv => ⟨(hhead v hv).1, (hhead v hv).2.1⟩), a1]
        · rw [c2 _ (fun v hv => ⟨(hhead v hv).2.2.1, (hhead v hv).2.2.2⟩), b1]
      · obtain ⟨x1, x2, x3, x4⟩ := hhead u hu
        obtain ⟨y1, y2⟩ := a2 u hu
        constructor
        · rw [y1, c1 _ (Ne.symm x2) (Ne.symm x4)]
        · rw [y2, c1 _ (Ne.symm x1) (Ne.symm x3)]
    · intro k hk
      obtain ⟨z1, z2⟩ := hk t (List.mem_cons_self _ _)
      rw [c2 k (fun v hv => hk v (List.mem_cons_of_mem _ hv)), c1 k z1 z2]

/-- One in-bounds copy writes the source sample into the destination cell. -/
theorem copy_sample_spec (data : List Nat) (src dst : Nat) (new_area : List Nat)
    (hs : src < data.length) (hd : dst < new_area.length) :
    ∃ out, copy_sample data src dst new_area = some out ∧ out.length = new_area.length ∧
      out[dst]? = data[src]? ∧ ∀ k, k ≠ dst → out[k]? = new_area[k]? := by
  unfold copy_sample
  rw [List.getElem?_eq_getElem hs]
  refine ⟨new_area.set dst data[src], by simp [hd], by simp, ?_, ?_⟩
  · rw [List.getElem?_set_self hd]
  · intro k hk
    rw [List.getElem?_set_ne (Ne.symm hk)]

/-- A sequence of in-bounds copies, in which two copies into the same cell
copy the same sample, leaves in every destination cell the sample of its
source and leaves every other cell. -/
theorem copies_spec {α : Type} (data : List Nat) (src dst : α → Nat) (ts : List α) :
    ∀ new_area : List Nat,
    (∀ t ∈ ts, src t < data.length ∧ dst t < new_area.length) →
    (∀ t ∈ ts, ∀ u ∈ ts, dst t = dst u → data[src t]? = data[src u]?) →
    ∃ out, ts.foldlM (fun acc t => copy_sample data (src t) (dst t) acc) new_area = some out ∧
      out.length = new_area.length ∧
      (∀ t ∈ ts, out[dst t]? = data[src t]?) ∧
      (∀ k, (∀ t ∈ ts, k ≠ dst t) → out[k]? = new_area[k]?) := by
  induction ts with
  | nil =>
    intro new_area _ _
    exact ⟨new_area, rfl, rfl, by simp, fun _ _ => rfl⟩
  | cons t ts ih =>
    intro new_area hb hc
    obtain ⟨hs, hd⟩ := hb t (List.mem_cons_self _ _)
    obtain ⟨d1, e1, l1, a1, c1⟩ := copy_sample_spec data (src t) (dst t) new_area hs hd
    obtain ⟨out, e2, l2, a2, c2⟩ := ih d1
      (fun u hu => by rw [l1]; exact hb u (List.mem_cons_of_mem _ hu))
      (fun u hu v hv => hc u (List.mem_cons_of_mem _ hu) v (List.mem_cons_of_mem _ hv))
    refine ⟨out, ?_, by rw [l2, l1], ?_, ?_⟩
    · rw [List.foldlM_cons, e1]; exact e2
    · intro u hu
      rcases List.mem_cons.1 hu with rfl | hu
      · by_cases hex : ∃ v ∈ ts, dst u = dst v
        · obtain ⟨v, hv, hv2⟩ := hex
          rw [hv2, a2 v hv]
          exact (hc u (List.mem_cons_self _ _) v (List.mem_cons_of_mem _ hv) hv2).symm
        · rw [c2 _ (fun v hv hv2 => hex ⟨v, hv, hv2⟩), a1]
      · exact a2 u hu
    · intro k hk
      rw [c2 k (fun v hv => hk v (List.mem_cons_of_mem _ hv)),
        c1 k (hk t (List.mem_cons_self _ _))]

/-! ## Offsets inside a buffer -/

theorem valid_shape_within_limits {img : image} (hv : valid_shape img) :
    within_limits img :=
  ⟨hv.2.1, hv.2.2.2.1, hv.2.2.2.2⟩

theorem within_limits_fits {img : image} (hv : within_limits img) : fits img := by
  obtain ⟨hw, hh, hc⟩ := hv
  unfold MAXIMUM_IMAGE_WIDTH at hw
  unfold MAXIMUM_IMAGE_HEIGHT at hh
  unfold fits
  have h1 : img.width * img.height ≤ 500 * 500 := Nat.mul_le_mul hw hh
  rcases hc with hc | hc <;> rw [hc] <;> omega

/-- Inside the buffer `image_point` computes the exact offset, without
overflow, and the offset is below the number of samples. -/
theorem image_point_exact {img : image} (hf : fits img) {row col depth : Nat}
    (hr : row < img.height) (hc : col < img.width) (hd : depth < img.colors_number) :
    image_point row col depth img
        = row * img.width * img.colors_number + col * img.colors_number + depth
      ∧ image_point row col depth img < img.width * img.height * img.colors_number := by
  have hlt := offset_lt hr hc hd
  have he : image_point row col depth img
      = row * img.width * img.colors_number + col * img.colors_number + depth := by
    rw [image_point_eq_u32]
    exact u32_of_lt (lt_trans hlt hf)
  exact ⟨he, by rw [he]; exact hlt⟩

theorem valid_shape_fits {img : image} (hv : valid_shape img) : fits img :=
  within_limits_fits (valid_shape_within_limits hv)

/-- Inside a well-formed buffer every sample read is defined. -/
theorem sample_some {img : image} (hw : well_formed img) (hf : fits img) {row col depth : Nat}
    (hr : row < img.height) (hc : col < img.width) (hd : depth < img.colors_number) :
    ∃ v, sample img row col depth = some v := by
  unfold well_formed at hw
  have hlt := (image_point_exact hf hr hc hd).2
  rw [← hw] at hlt
  exact ⟨_, List.getElem?_eq_getElem hlt⟩

/-- Every offset below the number of samples is the exact offset of one
`(row, col, depth)` inside the buffer. -/
theorem offset_surj {w h cn n : Nat} (hn : n < w * h * cn) :
    ∃ r c d, r < h ∧ c < w ∧ d < cn ∧ r * w * cn + c * cn + d = n := by
  have hcn : 0 < cn := by
    rcases Nat.eq_zero_or_pos cn with h0 | h0
    · rw [h0] at hn; simp at hn
    · exact h0
  have hw : 0 < w := by
    rcases Nat.eq_zero_or_pos w with h0 | h0
    · rw [h0] at hn; simp at hn
    · exact h0
  refine ⟨n / cn / w, n / cn % w, n % cn, ?_, Nat.mod_lt _ hw, Nat.mod_lt _ hcn, ?_⟩
  · rw [Nat.div_lt_iff_lt_mul hw, Nat.div_lt_iff_lt_mul hcn]
    have : h * w * cn = w * h * cn := by ring
    rw [this]; exact hn
  · have e1 : n / cn / w * w * cn + n / cn % w * cn + n % cn
        = (n / cn / w * w + n / cn % w) * cn + n % cn := by ring
    rw [e1, Nat.div_add_mod', Nat.div_add_mod']

/-- Two well-formed buffers of one shape with the same sample at every
`(row, col, depth)` have the same sample array. -/
theorem data_eq_of_samples {a b : image} (hwa : well_formed a) (hwb : well_formed b)
    (hf : fits a) (e1 : b.width = a.width) (e2 : b.height = a.height)
    (e3 : b.colors_number = a.colors_number)
    (hs : ∀ r c d, r < a.height → c < a.width → d < a.colors_number →
      sample b r c d = sample a r c d) :
    b.data = a.data := by
  unfold well_formed at hwa hwb
  rw [e1, e2, e3] at hwb
  apply List.ext_getElem?
  intro n
  by_cases hn : n < a.width * a.height * a.colors_number
  · obtain ⟨r, c, d, hr, hc, hd, e⟩ := offset_surj hn
    have h1 := hs r c d hr hc hd
    unfold sample at h1
    have h2 : image_point r c d b = image_point r c d a := by
      unfold image_point; rw [e1, e3]
    rw [h2, (image_point_exact hf hr hc hd).1, e] at h1
    exact h1
  · rw [List.getElem?_eq_none (by omega), List.getElem?_eq_none (by omega)]

theorem image_ext {a b : image} (e1 : a.width = b.width) (e2 : a.height = b.height)
    (e3 : a.colors_number = b.colors_number) (e4 : a.max_color_value = b.max_color_value)
    (e5 : a.data = b.data) : a = b := by
  cases a; cases b; simp_all

theorem forLoop_skip {σ : Type} (n : Nat) (s : σ) :
    forLoop n (fun _ acc => some acc) s = some s := by
  unfold forLoop
  induction List.range n with
  | nil => rfl
  | cons a l ih => rw [List.foldlM_cons]; exact ih

theorem width_lt_of_fits {img : image} (hf : fits img)
    (hh : 0 < img.height) (hc : 0 < img.colors_number) : img.width < 2 ^ 32 := by
  unfold fits at hf
  have h1 : img.width * 1 ≤ img.width * img.height := Nat.mul_le_mul_left _ hh
  have h2 : img.width * img.height * 1 ≤ img.width * img.height * img.colors_number :=
    Nat.mul_le_mul_left _ hc
  omega

theorem height_lt_of_fits {img : image} (hf : fits img)
    (hw : 0 < img.width) (hc : 0 < img.colors_number) : img.height < 2 ^ 32 := by
  unfold fits at hf
  have h1 : 1 * img.height ≤ img.width * img.height := Nat.mul_le_mul_right _ hw
  have h2 : img.width * img.height * 1 ≤ img.width * img.height * img.colors_number :=
    Nat.mul_le_mul_left _ hc
  omega

theorem mirror_index {n i : Nat} (hi : i < n) (hn : n < 2 ^ 32) :
    u32_sub (u32_sub n i) 1 = n - 1 - i := by
  rw [u32_sub_of_le (by omega) hn, u32_sub_of_le (by omega) (by omega)]
  omega

/-! ## The flips -/

/-- What `flip_horizontally` computes on a well-formed buffer: it returns a
buffer of the same shape whose sample at `(row, col, depth)` is the original
sample at `(row, width - 1 - col, depth)`. -/
theorem flip_horizontally_spec (img : image) (hw : well_formed img) (hf : fits img) :
    ∃ out, flip_horizontally img = some out ∧
      out.width = img.width ∧ out.height = img.height ∧
      out.colors_number = img.colors_number ∧
      out.max_color_value = img.max_color_value ∧
      out.data.length = img.data.length ∧
      ∀ row col depth, row < img.height → col < img.width → depth < img.colors_number →
        sample out row col depth = sample img row (img.width - 1 - col) depth := by
  unfold well_formed at hw
  have key := swaps_spec
    (fun t : Nat × Nat × Nat => image_point t.1 t.2.1 t.2.2 img)
    (fun t : Nat × Nat × Nat =>
      image_point t.1 (u32_sub (u32_sub img.width t.2.1) 1) t.2.2 img)
    (triples img.height (img.width / 2) img.colors_number) img.data
  have hsrc : ∀ t ∈ triples img.height (img.width / 2) img.colors_number,
      image_point t.1 t.2.1 t.2.2 img
        = t.1 * img.width * img.colors_number + t.2.1 * img.colors_number + t.2.2 := by
    intro t ht
    obtain ⟨h1, h2, h3⟩ := mem_triples.1 ht
    exact (image_point_exact hf h1 (by omega) h3).1
  have hdst : ∀ t ∈ triples img.height (img.width / 2) img.colors_number,
      image_point t.1 (u32_sub (u32_sub img.width t.2.1) 1) t.2.2 img
        = t.1 * img.width * img.colors_number
          + (img.width - 1 - t.2.1) * img.colors_number + t.2.2 := by
    intro t ht
    obtain ⟨h1, h2, h3⟩ := mem_triples.1 ht
    rw [mirror_index (by omega) (width_lt_of_fits hf (by omega) (by omega))]
    exact (image_point_exact hf h1 (by omega) h3).1
  obtain ⟨out, e, l, a, c⟩ := key
    (by
      intro t ht
      obtain ⟨h1, h2, h3⟩ := mem_triples.1 ht
      have hwl := width_lt_of_fits hf (by omega) (by omega)
      constructor
      · rw [hw]; exact (image_point_exact hf h1 (by omega) h3).2
      · show image_point t.1 (u32_sub (u32_sub img.width t.2.1) 1) t.2.2 img < _
        rw [hw, mirror_index (by omega) hwl]
        exact (image_point_exact hf h1 (by omega) h3).2)
    (by
      apply List.Nodup.pairwise_of_forall_ne (nodup_triples _ _ _)
      intro t ht u hu hne
      obtain ⟨h1, h2, h3⟩ := mem_triples.1 ht
      obtain ⟨k1, k2, k3⟩ := mem_triples.1 hu
      show image_point _ _ _ _ ≠ image_point _ _ _ _ ∧ image_point _ _ _ _ ≠ image_point _ _ _ _
        ∧ image_point _ _ _ _ ≠ image_point _ _ _ _ ∧ image_point _ _ _ _ ≠ image_point _ _ _ _
      rw [hsrc t ht, hsrc u hu, hdst t ht, hdst u hu]
      refine ⟨?_, ?_, ?_, ?_⟩
      · intro h
        obtain ⟨x1, x2, x3⟩ := offset_inj (by omega) h3 (by omega) k3 h
        exact hne (Prod.ext x1 (Prod.ext x2 x3))
      · intro h
        obtain ⟨x1, x2, x3⟩ := offset_inj (by omega) h3 (by omega) k3 h
        omega
      · intro h
        obtain ⟨x1, x2, x3⟩ := offset_inj (by omega) h3 (by omega) k3 h
        omega
      · intro h
        obtain ⟨x1, x2, x3⟩ := offset_inj (by omega) h3 (by omega) k3 h
        exact hne (Prod.ext x1 (Prod.ext (by omega) x3)))
  refine ⟨{ img with data := out }, ?_, rfl, rfl, rfl, rfl, l, ?_⟩
  · unfold flip_horizontally
    rw [forLoop3_eq, e]
    rfl
  · intro row col depth hr hc hd
    have hwl := width_lt_of_fits hf (by omega) (by omega)
    unfold sample
    show out[image_point row col depth { img with data := out }]? = _
    have hp : image_point row col depth { img with data := out }
        = image_point row col depth img := rfl
    rw [hp, (image_point_exact hf hr hc hd).1,
      (image_point_exact hf hr (show img.width - 1 - col < img.width by omega) hd).1]
    by_cases c1 : col < img.width / 2
    · have ht : (row, col, depth) ∈ triples img.height (img.width / 2) img.colors_number :=
        mem_triples.2 ⟨hr, c1, hd⟩
      have := (a _ ht).1
      rw [hsrc _ ht, hdst _ ht] at this
      exact this
    · by_cases c2 : img.width - 1 - col < img.width / 2
      · have ht : (row, img.width - 1 - col, depth)
            ∈ triples img.height (img.width / 2) img.colors_number :=
          mem_triples.2 ⟨hr, c2, hd⟩
        have := (a _ ht).2
        rw [hsrc _ ht, hdst _ ht] at this
        have hcc : img.width - 1 - (img.width - 1 - col) = col := by omega
        simp only [hcc] at this
        exact this
      · have hcc : img.width - 1 - col = col := by omega
        rw [hcc]
        apply c
        intro t ht
        obtain ⟨h1, h2, h3⟩ := mem_triples.1 ht
        show _ ≠ image_point _ _ _ _ ∧ _ ≠ image_point _ _ _ _
        rw [hsrc t ht, hdst t ht]
        constructor
        · intro h
          obtain ⟨x1, x2, x3⟩ := offset_inj hc hd (by omega) h3 h
          omega
        · intro h
          obtain ⟨x1, x2, x3⟩ := offset_inj hc hd (by omega) h3 h
          omega

/-- What `flip_vertically` computes on a well-formed buffer: it returns a
buffer of the same shape whose sample at `(row, col, depth)` is the original
sample at `(height - 1 - row, col, depth)`. -/
theorem flip_vertically_spec (img : image) (hw : well_formed img) (hf : fits img) :
    ∃ out, flip_vertically img = some out ∧
      out.width = img.width ∧ out.height = img.height ∧
      out.colors_number = img.colors_number ∧
      out.max_color_value = img.max_color_value ∧
      out.data.length = img.data.length ∧
      ∀ row col depth, row < img.height → col < img.width → depth < img.colors_number →
        sample out row col depth = sample img (img.height - 1 - row) col depth := by
  unfold well_formed at hw
  have key := swaps_spec
    (fun t : Nat × Nat × Nat => image_point t.1 t.2.1 t.2.2 img)
    (fun t : Nat × Nat × Nat =>
      image_point (u32_sub (u32_sub img.height t.1) 1) t.2.1 t.2.2 img)
    (triples (img.height / 2) img.width img.colors_number) img.data
  have hsrc : ∀ t ∈ triples (img.height / 2) img.width img.colors_number,
      image_point t.1 t.2.1 t.2.2 img
        = t.1 * img.width * img.colors_number + t.2.1 * img.colors_number + t.2.2 := by
    intro t ht
    obtain ⟨h1, h2, h3⟩ := mem_triples.1 ht
    exact (image_point_exact hf (by omega) h2 h3).1
  have hdst : ∀ t ∈ triples (img.height / 2) img.width img.colors_number,
      image_point (u32_sub (u32_sub img.height t.1) 1) t.2.1 t.2.2 img
        = (img.height - 1 - t.1) * img.width * img.colors_number
          + t.2.1 * img.colors_number + t.2.2 := by
    intro t ht
    obtain ⟨h1, h2, h3⟩ := mem_triples.1 ht
    rw [mirror_index (by omega) (height_lt_of_fits hf (by omega) (by omega))]
    exact (image_point_exact hf (by omega) h2 h3).1
  obtain ⟨out, e, l, a, c⟩ := key
    (by
      intro t ht
      obtain ⟨h1, h2, h3⟩ := mem_triples.1 ht
      have hhl := height_lt_of_fits hf (by omega) (by omega)
      constructor
      · rw [hw]; exact (image_point_exact hf (by omega) h2 h3).2
      · show image_point (u32_sub (u32_sub img.height t.1) 1) t.2.1 t.2.2 img < _
        rw [hw, mirror_index (by omega) hhl]
        exact (image_point_exact hf (by omega) h2 h3).2)
    (by
      apply List.Nodup.pairwise_of_forall_ne (nodup_triples _ _ _)
      intro t ht u hu hne
      obtain ⟨h1, h2, h3⟩ := mem_triples.1 ht
      obtain ⟨k1, k2, k3⟩ := mem_triples.1 hu
      show image_point _ _ _ _ ≠ image_point _ _ _ _ ∧ image_point _ _ _ _ ≠ image_point _ _ _ _
        ∧ image_point _ _ _ _ ≠ image_point _ _ _ _ ∧ image_point _ _ _ _ ≠ image_point _ _ _ _
      rw [hsrc t ht, hsrc u hu, hdst t ht, hdst u hu]
      refine ⟨?_, ?_, ?_, ?_⟩
      · intro h
        obtain ⟨x1, x2, x3⟩ := offset_inj h2 h3 k2 k3 h
        exact hne (Prod.ext x1 (Prod.ext x2 x3))
      · intro h
        obtain ⟨x1, x2, x3⟩ := offset_inj h2 h3 k2 k3 h
        omega
      · intro h
        obtain ⟨x1, x2, x3⟩ := offset_inj h2 h3 k2 k3 h
        omega
      · intro h
        obtain ⟨x1, x2, x3⟩ := offset_inj h2 h3 k2 k3 h
        exact hne (Prod.ext (by omega) (Prod.ext x2 x3)))
  refine ⟨{ img with data := out }, ?_, rfl, rfl, rfl, rfl, l, ?_⟩
  · unfold flip_vertically
    rw [forLoop3_eq, e]
    rfl
  · intro row col depth hr hc hd
    have hhl := height_lt_of_fits hf (by omega) (by omega)
    unfold sample
    show out[image_point row col depth { img with data := out }]? = _
    have hp : image_point row col depth { img with data := out }
        = image_point row col depth img := rfl
    rw [hp, (image_point_exact hf hr hc hd).1,
      (image_point_exact hf (show img.height - 1 - row < img.height by omega) hc hd).1]
    by_cases c1 : row < img.height / 2
    · have ht : (row, col, depth) ∈ triples (img.height / 2) img.width img.colors_number :=
        mem_triples.2 ⟨c1, hc, hd⟩
      have := (a _ ht).1
      rw [hsrc _ ht, hdst _ ht] at this
      exact this
    · by_cases c2 : img.height - 1 - row < img.height / 2
      · have ht : (img.height - 1 - row, col, depth)
            ∈ triples (img.height / 2) img.width img.colors_number :=
          mem_triples.2 ⟨c2, hc, hd⟩
        have := (a _ ht).2
        rw [hsrc _ ht, hdst _ ht] at this
        have hcc : img.height - 1 - (img.height - 1 - row) = row := by omega
        simp only [hcc] at this
        exact this
      · have hcc : img.height - 1 - row = row := by omega
        rw [hcc]
        apply c
        intro t ht
        obtain ⟨h1, h2, h3⟩ := mem_triples.1 ht
        show _ ≠ image_point _ _ _ _ ∧ _ ≠ image_point _ _ _ _
        rw [hsrc t ht, hdst t ht]
        constructor
        · intro h
          obtain ⟨x1, x2, x3⟩ := offset_inj hc hd h2 h3 h
          omega
        · intro h
          obtain ⟨x1, x2, x3⟩ := offset_inj hc hd h2 h3 h
          omega

/-! ## Cropping -/

theorem i32_sub_of_range {a b : Int} (h1 : -(2 ^ 31) ≤ a - b) (h2 : a - b < 2 ^ 31) :
    i32_sub a b = some (a - b) := by
  unfold i32_sub
  rw [if_pos ⟨h1, h2⟩]

/-- What the copy loop of `cut_area` computes for a region inside the buffer:
a buffer with the dimensions of the region whose sample at `(r, c, d)` is the
original sample at `(upper_left.y + r, upper_left.x + c, d)`. -/
theorem cut_area_copy_spec (img : image) (area : area2d)
    (hw : well_formed img) (hf : fits img)
    (hx0 : 0 ≤ area.upper_left.x) (hx1 : area.upper_left.x ≤ area.lower_right.x)
    (hx2 : area.lower_right.x ≤ img.width) (hx3 : area.lower_right.x < 2 ^ 31)
    (hy0 : 0 ≤ area.upper_left.y) (hy1 : area.upper_left.y ≤ area.lower_right.y)
    (hy2 : area.lower_right.y ≤ img.height) (hy3 : area.lower_right.y < 2 ^ 31) :
    ∃ out, cut_area_copy img area = some out ∧
      (out.width : Int) = area.lower_right.x - area.upper_left.x ∧
      (out.height : Int) = area.lower_right.y - area.upper_left.y ∧
      out.colors_number = img.colors_number ∧
      out.max_color_value = img.max_color_value ∧
      out.data.length = out.width * out.height * out.colors_number ∧
      ∀ r c d, r < out.height → c < out.width → d < img.colors_number →
        sample out r c d
          = sample img (area.upper_left.y.toNat + r) (area.upper_left.x.toNat + c) d := by
  unfold well_formed at hw
  have hfits := hf
  unfold fits at hfits
  have ex : i32_sub area.lower_right.x area.upper_left.x
      = some (area.lower_right.x - area.upper_left.x) :=
    i32_sub_of_range (by omega) (by omega)
  have ey : i32_sub area.lower_right.y area.upper_left.y
      = some (area.lower_right.y - area.upper_left.y) :=
    i32_sub_of_range (by omega) (by omega)
  have tx : toU32 (area.lower_right.x - area.upper_left.x)
      = (area.lower_right.x - area.upper_left.x).toNat :=
    toU32_of_nonneg (by omega) (by omega)
  have ty : toU32 (area.lower_right.y - area.upper_left.y)
      = (area.lower_right.y - area.upper_left.y).toNat :=
    toU32_of_nonneg (by omega) (by omega)
  have ux : toU32 area.upper_left.x = area.upper_left.x.toNat :=
    toU32_of_nonneg hx0 (by omega)
  have uy : toU32 area.upper_left.y = area.upper_left.y.toNat :=
    toU32_of_nonneg hy0 (by omega)
  generalize hcols : (area.lower_right.x - area.upper_left.x).toNat = cols at tx
  generalize hrows : (area.lower_right.y - area.upper_left.y).toNat = rows at ty
  generalize hX : area.upper_left.x.toNat = X0 at ux
  generalize hY : area.upper_left.y.toNat = Y0 at uy
  have hcw : X0 + cols ≤ img.width := by omega
  have hrh : Y0 + rows ≤ img.height := by omega
  have hsize : cols * rows * img.colors_number
      ≤ img.width * img.height * img.colors_number :=
    Nat.mul_le_mul (Nat.mul_le_mul (by omega) (by omega)) (le_refl _)
  have hsz : u32 (u32 (cols * rows) * img.colors_number) = cols * rows * img.colors_number := by
    rw [u32_mul_left]; exact u32_of_lt (by omega)
  have hsrc : ∀ t ∈ triples rows cols img.colors_number,
      image_point (u32 (toU32 area.upper_left.y + t.1))
          (u32 (toU32 area.upper_left.x + t.2.1)) t.2.2 img
        = image_point (Y0 + t.1) (X0 + t.2.1) t.2.2 img := by
    intro t ht
    obtain ⟨h1, h2, h3⟩ := mem_triples.1 ht
    rw [ux, uy, u32_of_lt (by omega), u32_of_lt (by omega)]
  have hdst : ∀ t ∈ triples rows cols img.colors_number,
      u32 (u32 (u32 (u32 (t.1 * cols) * img.colors_number)
            + u32 (t.2.1 * img.colors_number)) + t.2.2)
        = t.1 * cols * img.colors_number + t.2.1 * img.colors_number + t.2.2
      ∧ t.1 * cols * img.colors_number + t.2.1 * img.colors_number + t.2.2
        < cols * rows * img.colors_number := by
    intro t ht
    obtain ⟨h1, h2, h3⟩ := mem_triples.1 ht
    have hlt := offset_lt h1 h2 h3
    rw [u32_mul_left, u32_add_both, u32_add_left]
    exact ⟨u32_of_lt (by omega), hlt⟩
  obtain ⟨out, e, l, a, _⟩ := copies_spec img.data
    (fun t : Nat × Nat × Nat =>
      image_point (u32 (toU32 area.upper_left.y + t.1))
        (u32 (toU32 area.upper_left.x + t.2.1)) t.2.2 img)
    (fun t : Nat × Nat × Nat =>
      u32 (u32 (u32 (u32 (t.1 * cols) * img.colors_number)
        + u32 (t.2.1 * img.colors_number)) + t.2.2))
    (triples rows cols img.colors_number)
    (List.replicate (cols * rows * img.colors_number) 0)
    (by
      intro t ht
      obtain ⟨h1, h2, h3⟩ := mem_triples.1 ht
      constructor
      · show image_point _ _ _ _ < _
        rw [hsrc t ht, hw]
        exact (image_point_exact hf (by omega) (by omega) h3).2
      · show u32 _ < _
        rw [(hdst t ht).1, List.length_replicate]
        exact (hdst t ht).2)
    (by
      intro t ht u hu h
      obtain ⟨h1, h2, h3⟩ := mem_triples.1 ht
      obtain ⟨k1, k2, k3⟩ := mem_triples.1 hu
      have h4 : u32 (u32 (u32 (u32 (t.1 * cols) * img.colors_number)
            + u32 (t.2.1 * img.colors_number)) + t.2.2)
          = u32 (u32 (u32 (u32 (u.1 * cols) * img.colors_number)
            + u32 (u.2.1 * img.colors_number)) + u.2.2) := h
      rw [(hdst t ht).1, (hdst u hu).1] at h4
      obtain ⟨x1, x2, x3⟩ := offset_inj h2 h3 k2 k3 h4
      have : t = u := Prod.ext x1 (Prod.ext x2 x3)
      rw [this])
  rw [List.length_replicate] at l
  refine ⟨update_image_data img out cols rows, ?_, ?_, ?_, rfl, rfl, ?_, ?_⟩
  · unfold cut_area_copy
    rw [ex, ey]
    simp only [Option.some_bind]
    rw [tx, ty, hsz, forLoop3_eq, e]
    rfl
  · show ((cols : Nat) : Int) = _
    omega
  · show ((rows : Nat) : Int) = _
    omega
  · show out.length = cols * rows * img.colors_number
    exact l
  · intro r c d hr hc hd
    have hr2 : r < rows := hr
    have hc2 : c < cols := hc
    have ht : (r, c, d) ∈ triples rows cols img.colors_number := mem_triples.2 ⟨hr2, hc2, hd⟩
    have h5 := a _ ht
    have h6 := hsrc _ ht
    simp only at h5 h6
    rw [h6] at h5
    exact h5

/-! ## Zooming -/

theorem block_index_lt {n k i j : Nat} (hi : i < n) (hj : j < k) : i * k + j < n * k := by
  have h1 : (i + 1) * k ≤ n * k := Nat.mul_le_mul_right k hi
  have h2 : (i + 1) * k = i * k + k := by ring
  omega

/-- What `zoom_in` computes when the region is no larger than the buffer and
nothing overflows: a buffer `zoom_factor` times as wide and as high as the
region, whose sample at `(R, C, d)` is the sample of the input buffer at
`(R / zoom_factor, C / zoom_factor, d)`, read with the input's own width. -/
theorem zoom_in_spec (img : image) (area : area2d) (k cols rows : Nat)
    (hw : well_formed img) (hf : fits img)
    (hx : area.lower_right.x - area.upper_left.x = cols)
    (hy : area.lower_right.y - area.upper_left.y = rows)
    (hcw : cols ≤ img.width) (hrh : rows ≤ img.height)
    (hk : k ≤ 65535) (hW : cols * k < 2 ^ 31) (hH : rows * k < 2 ^ 31)
    (hc31 : cols < 2 ^ 31) (hr31 : rows < 2 ^ 31)
    (hout : cols * k * (rows * k) * img.colors_number < 2 ^ 32) :
    ∃ out, zoom_in img area k = some out ∧
      out.width = cols * k ∧ out.height = rows * k ∧
      out.colors_number = img.colors_number ∧
      out.max_color_value = img.max_color_value ∧
      out.data.length = out.width * out.height * out.colors_number ∧
      ∀ R C d, R < rows * k → C < cols * k → d < img.colors_number →
        sample out R C d = sample img (R / k) (C / k) d := by
  unfold well_formed at hw
  have ex : i32_sub area.lower_right.x area.upper_left.x
      = some (area.lower_right.x - area.upper_left.x) :=
    i32_sub_of_range (by omega) (by omega)
  have ey : i32_sub area.lower_right.y area.upper_left.y
      = some (area.lower_right.y - area.upper_left.y) :=
    i32_sub_of_range (by omega) (by omega)
  have tx : toU32 (area.lower_right.x - area.upper_left.x) = cols := by
    rw [hx]; exact toU32_natCast (by omega)
  have ty : toU32 (area.lower_right.y - area.upper_left.y) = rows := by
    rw [hy]; exact toU32_natCast (by omega)
  have hsz : u32 (u32 (u32 (u32 (cols * k) * rows) * k) * img.colors_number)
      = cols * k * (rows * k) * img.colors_number := by
    simp only [u32_mul_left]
    have : cols * k * rows * k * img.colors_number
        = cols * k * (rows * k) * img.colors_number := by ring
    rw [this]; exact u32_of_lt hout
  have hdst : ∀ q ∈ quints rows cols img.colors_number k,
      u32 (u32 (u32 (u32 (u32 (u32 (u32 (q.1.1 * k) + q.2.2) * cols) * k)
            * img.colors_number)
          + u32 (u32 (u32 (q.1.2.1 * k) + q.2.1) * img.colors_number)) + q.1.2.2)
        = (q.1.1 * k + q.2.2) * (cols * k) * img.colors_number
          + (q.1.2.1 * k + q.2.1) * img.colors_number + q.1.2.2
      ∧ (q.1.1 * k + q.2.2) * (cols * k) * img.colors_number
          + (q.1.2.1 * k + q.2.1) * img.colors_number + q.1.2.2
        < cols * k * (rows * k) * img.colors_number := by
    intro q hq
    obtain ⟨h1, h2, h3, h4, h5⟩ := mem_quints.1 hq
    have hlt := offset_lt (block_index_lt h1 h5) (block_index_lt h2 h4) h3
    simp only [u32_mul_left, u32_add_left, u32_add_right]
    have : (q.1.1 * k + q.2.2) * cols * k * img.colors_number
        = (q.1.1 * k + q.2.2) * (cols * k) * img.colors_number := by ring
    rw [this]
    exact ⟨u32_of_lt (by omega), hlt⟩
  obtain ⟨out, e, l, a, _⟩ := copies_spec img.data
    (fun q : (Nat × Nat × Nat) × (Nat × Nat) => image_point q.1.1 q.1.2.1 q.1.2.2 img)
    (fun q : (Nat × Nat × Nat) × (Nat × Nat) =>
      u32 (u32 (u32 (u32 (u32 (u32 (u32 (q.1.1 * k) + q.2.2) * cols) * k)
            * img.colors_number)
          + u32 (u32 (u32 (q.1.2.1 * k) + q.2.1) * img.colors_number)) + q.1.2.2))
    (quints rows cols img.colors_number k)
    (List.replicate (cols * k * (rows * k) * img.colors_number) 0)
    (by
      intro q hq
      obtain ⟨h1, h2, h3, h4, h5⟩ := mem_quints.1 hq
      constructor
      · show image_point _ _ _ _ < _
        rw [hw]
        exact (image_point_exact hf (by omega) (by omega) h3).2
      · show u32 _ < _
        rw [(hdst q hq).1, List.length_replicate]
        exact (hdst q hq).2)
    (by
      intro q hq u hu h
      obtain ⟨h1, h2, h3, h4, h5⟩ := mem_quints.1 hq
      obtain ⟨k1, k2, k3, k4, k5⟩ := mem_quints.1 hu
      have h6 : u32 (u32 (u32 (u32 (u32 (u32 (u32 (q.1.1 * k) + q.2.2) * cols) * k)
                * img.colors_number)
              + u32 (u32 (u32 (q.1.2.1 * k) + q.2.1) * img.colors_number)) + q.1.2.2)
          = u32 (u32 (u32 (u32 (u32 (u32 (u32 (u.1.1 * k) + u.2.2) * cols) * k)
                * img.colors_number)
              + u32 (u32 (u32 (u.1.2.1 * k) + u.2.1) * img.colors_number)) + u.1.2.2) := h
      rw [(hdst q hq).1, (hdst u hu).1] at h6
      obtain ⟨x1, x2, x3⟩ := offset_inj (block_index_lt h2 h4) h3 (block_index_lt k2 k4) k3 h6
      have r1 : q.1.1 = u.1.1 := by
        have := congrArg (· / k) x1
        simpa [(offset_decode h5).2, (offset_decode k5).2] using this
      have r2 : q.1.2.1 = u.1.2.1 := by
        have := congrArg (· / k) x2
        simpa [(offset_decode h4).2, (offset_decode k4).2] using this
      show img.data[image_point q.1.1 q.1.2.1 q.1.2.2 img]?
        = img.data[image_point u.1.1 u.1.2.1 u.1.2.2 img]?
      rw [r1, r2, x3])
  rw [List.length_replicate] at l
  refine ⟨update_image_data img out (cols * k) (rows * k), ?_, rfl, rfl, rfl, rfl, ?_, ?_⟩
  · unfold zoom_in
    rw [ex, ey]
    simp only [Option.some_bind]
    rw [tx, ty, hsz, u32_of_lt (show cols * k < 2 ^ 32 by omega),
      u32_of_lt (show rows * k < 2 ^ 32 by omega)]
    simp only [forLoopU16, if_pos hk]
    rw [forLoop5_eq, e]
    rfl
  · show out.length = cols * k * (rows * k) * img.colors_number
    exact l
  · intro R C d hR hC hd
    have hk0 : 0 < k := by
      rcases Nat.eq_zero_or_pos k with h0 | h0
      · rw [h0] at hR; simp at hR
      · exact h0
    have hq : ((R / k, C / k, d), (C % k, R % k)) ∈ quints rows cols img.colors_number k :=
      mem_quints.2 ⟨(Nat.div_lt_iff_lt_mul hk0).2 hR, (Nat.div_lt_iff_lt_mul hk0).2 hC, hd,
        Nat.mod_lt _ hk0, Nat.mod_lt _ hk0⟩
    have h7 := a _ hq
    have h8 := (hdst _ hq).1
    simp only at h7 h8
    rw [h8, Nat.div_add_mod', Nat.div_add_mod'] at h7
    unfold sample
    have hp : image_point R C d (update_image_data img out (cols * k) (rows * k))
        = R * (cols * k) * img.colors_number + C * img.colors_number + d := by
      rw [image_point_eq_u32]
      show u32 (R * (cols * k) * img.colors_number + C * img.colors_number + d) = _
      have hlt := offset_lt hR hC hd
      exact u32_of_lt (by omega)
    rw [hp]
    exact h7

/-- What `zoom_in` does to an empty 0 by 0 buffer whose region is empty as
well: no loop body runs and the result is the empty buffer, for any factor. -/
theorem zoom_in_empty (img : image) (area : area2d) (k : Nat)
    (hx : area.lower_right.x - area.upper_left.x = 0)
    (hy : area.lower_right.y - area.upper_left.y = 0) :
    zoom_in img area k = some (update_image_data img [] 0 0) := by
  unfold zoom_in
  rw [i32_sub_of_range (by omega) (by omega), i32_sub_of_range (by omega) (by omega)]
  simp [hx, hy, toU32, u32, forLoop]

/-- What `cut_area` does after the early return when the region has no
columns or no rows: no sample is copied and the result has no samples. -/
theorem cut_area_copy_empty (img : image) (area : area2d)
    (hdx : is_i32 (area.lower_right.x - area.upper_left.x))
    (hdy : is_i32 (area.lower_right.y - area.upper_left.y))
    (h0 : area.lower_right.x - area.upper_left.x = 0
      ∨ area.lower_right.y - area.upper_left.y = 0) :
    cut_area_copy img area = some (update_image_data img []
      (toU32 (area.lower_right.x - area.upper_left.x))
      (toU32 (area.lower_right.y - area.upper_left.y))) := by
  unfold cut_area_copy
  rw [i32_sub_of_range hdx.1 hdx.2, i32_sub_of_range hdy.1 hdy.2]
  simp only [Option.some_bind]
  rcases h0 with h | h
  · rw [h]
    have z : toU32 0 = 0 := rfl
    rw [z]
    have hs : ∀ (body : Nat → List Nat → Option (List Nat)) (acc : List Nat),
        forLoop 0 body acc = some acc := fun _ _ => rfl
    simp only [hs, forLoop_skip]
    simp [u32]
  · rw [h]
    have z : toU32 0 = 0 := rfl
    rw [z]
    simp [forLoop, u32]

/-! ## The claims -/

/-- C1: on a well-formed buffer of valid shape and a region with
`0 <= upper_left.x < lower_right.x <= width` and
`0 <= upper_left.y < lower_right.y <= height`, `cut_area` returns a
well-formed buffer of width `lower_right.x - upper_left.x` and height
`lower_right.y - upper_left.y`, with the colors_number and max_color_value of
the input, whose sample at `(r, c, ch)` is the original sample at
`(upper_left.y + r, upper_left.x + c, ch)`, for every row and column of the
new buffer and every channel of the input. -/
theorem cut_area_reads_region (img : image) (area : area2d)
    (hw : well_formed img) (hv : valid_shape img)
    (hx : 0 ≤ area.upper_left.x ∧ area.upper_left.x < area.lower_right.x
      ∧ area.lower_right.x ≤ img.width)
    (hy : 0 ≤ area.upper_left.y ∧ area.upper_left.y < area.lower_right.y
      ∧ area.lower_right.y ≤ img.height) :
    ∃ out, cut_area img area = some out ∧
      (out.width : Int) = area.lower_right.x - area.upper_left.x ∧
      (out.height : Int) = area.lower_right.y - area.upper_left.y ∧
      out.colors_number = img.colors_number ∧
      out.max_color_value = img.max_color_value ∧
      well_formed out ∧
      ∀ r c ch, r < out.height → c < out.width → ch < img.colors_number →
        ∃ v, sample out r c ch = some v ∧
          sample img (area.upper_left.y.toNat + r) (area.upper_left.x.toNat + c) ch
            = some v := by
  have hf := valid_shape_fits hv
  obtain ⟨_, hw500, _, hh500, _⟩ := hv
  unfold MAXIMUM_IMAGE_WIDTH at hw500
  unfold MAXIMUM_IMAGE_HEIGHT at hh500
  obtain ⟨hx0, hx1, hx2⟩ := hx
  obtain ⟨hy0, hy1, hy2⟩ := hy
  unfold cut_area
  split
  · rename_i hfull
    obtain ⟨f1, f2, f3, f4⟩ := hfull
    rw [toU32_of_nonneg (by omega) (by omega)] at f3 f4
    refine ⟨img, rfl, by omega, by omega, rfl, rfl, hw, ?_⟩
    intro r c ch hr hc hch
    obtain ⟨v, hv⟩ := sample_some hw hf hr hc hch
    refine ⟨v, hv, ?_⟩
    rw [f1, f2]
    simpa using hv
  · obtain ⟨out, e, ew, eh, ec, em, el, hs⟩ := cut_area_copy_spec img area hw hf
      hx0 (le_of_lt hx1) hx2 (by omega) hy0 (le_of_lt hy1) hy2 (by omega)
    refine ⟨out, e, ew, eh, ec, em, el, ?_⟩
    intro r c ch hr hc hch
    obtain ⟨v, hv⟩ := sample_some hw hf
      (show area.upper_left.y.toNat + r < img.height by omega)
      (show area.upper_left.x.toNat + c < img.width by omega) hch
    exact ⟨v, by rw [hs r c ch hr hc hch]; exact hv, hv⟩

/-- C1, the scenario of the specification: cropping the 4x4 grayscale buffer
`0..15` to the region `(1,1)-(3,3)` gives the 2x2 buffer `[5,6,9,10]`. -/
theorem cut_area_reads_region_witness :
    cut_area gray4x4 area_1133 = some gray2x2 ∧
    ∃ out, cut_area gray4x4 area_1133 = some out ∧
      (out.width : Int) = area_1133.lower_right.x - area_1133.upper_left.x ∧
      (out.height : Int) = area_1133.lower_right.y - area_1133.upper_left.y ∧
      out.colors_number = gray4x4.colors_number ∧
      out.max_color_value = gray4x4.max_color_value ∧
      well_formed out ∧
      ∀ r c ch, r < out.height → c < out.width → ch < gray4x4.colors_number →
        ∃ v, sample out r c ch = some v ∧
          sample gray4x4 (area_1133.upper_left.y.toNat + r)
            (area_1133.upper_left.x.toNat + c) ch = some v :=
  ⟨by decide, cut_area_reads_region gray4x4 area_1133 (by decide) (by decide)
    (by decide) (by decide)⟩

/-- C2: on a well-formed buffer of valid shape whose width and height are the
columns and rows of the region, and a factor `k >= 1` with `k * columns <= 500`
and `k * rows <= 500`, `zoom_in` returns a buffer of width `k * columns` and
height `k * rows` in which the sample at `(row * k + dy, col * k + dx, ch)` is
the source sample at `(row, col, ch)`, and in which every sample at
`(R, C, ch)` is the source sample at `(R / k, C / k, ch)`. -/
theorem zoom_in_replicates_blocks (img : image) (area : area2d) (k : Nat)
    (hw : well_formed img) (hv : valid_shape img)
    (hx : area.lower_right.x - area.upper_left.x = img.width)
    (hy : area.lower_right.y - area.upper_left.y = img.height)
    (hk : 1 ≤ k) (hkw : k * img.width ≤ 500) (hkh : k * img.height ≤ 500) :
    ∃ out, zoom_in img area k = some out ∧
      out.width = k * img.width ∧ out.height = k * img.height ∧
      (∀ row col ch dy dx, row < img.height → col < img.width →
        ch < img.colors_number → dy < k → dx < k →
        ∃ v, sample out (row * k + dy) (col * k + dx) ch = some v ∧
          sample img row col ch = some v) ∧
      (∀ R C ch, R < k * img.height → C < k * img.width → ch < img.colors_number →
        ∃ v, sample out R C ch = some v ∧ sample img (R / k) (C / k) ch = some v) := by
  have hf := valid_shape_fits hv
  obtain ⟨hw0, hw500, hh0, hh500, hcn⟩ := hv
  unfold MAXIMUM_IMAGE_WIDTH at hw500
  unfold MAXIMUM_IMAGE_HEIGHT at hh500
  have hk500 : k ≤ 500 := by
    have : k * 1 ≤ k * img.width := Nat.mul_le_mul_left _ hw0
    omega
  have hkw2 : img.width * k ≤ 500 := by rw [Nat.mul_comm]; exact hkw
  have hkh2 : img.height * k ≤ 500 := by rw [Nat.mul_comm]; exact hkh
  have hout : img.width * k * (img.height * k) * img.colors_number < 2 ^ 32 := by
    have h1 : img.width * k * (img.height * k) ≤ 500 * 500 := Nat.mul_le_mul hkw2 hkh2
    rcases hcn with hc | hc <;> rw [hc] <;> omega
  obtain ⟨out, e, ew, eh, ec, _, _, hs⟩ := zoom_in_spec img area k img.width img.height
    hw hf hx hy (le_refl _) (le_refl _) (by omega) (by omega) (by omega) (by omega)
    (by omega) hout
  have hall : ∀ R C ch, R < k * img.height → C < k * img.width → ch < img.colors_number →
      ∃ v, sample out R C ch = some v ∧ sample img (R / k) (C / k) ch = some v := by
    intro R C ch hR hC hch
    have hk0 : 0 < k := hk
    obtain ⟨v, hv⟩ := sample_some hw hf
      ((Nat.div_lt_iff_lt_mul hk0).2 (by rw [Nat.mul_comm]; exact hR))
      ((Nat.div_lt_iff_lt_mul hk0).2 (by rw [Nat.mul_comm]; exact hC)) hch
    refine ⟨v, ?_, hv⟩
    rw [hs R C ch (by rw [Nat.mul_comm]; exact hR) (by rw [Nat.mul_comm]; exact hC) hch]
    exact hv
  refine ⟨out, e, by rw [ew, Nat.mul_comm], by rw [eh, Nat.mul_comm], ?_, hall⟩
  intro row col ch dy dx hr hc hch hdy hdx
  have h1 := hall (row * k + dy) (col * k + dx) ch
    (by rw [Nat.mul_comm k img.height]; exact block_index_lt hr hdy)
    (by rw [Nat.mul_comm k img.width]; exact block_index_lt hc hdx) hch
  rw [(offset_decode hdy).2, (offset_decode hdx).2] at h1
  exact h1

/-- C2, the scenario of the specification: zooming the 2x2 buffer `[5,6,9,10]`
by the factor 2 gives the 4x4 buffer in which each sample fills a 2x2 block. -/
theorem zoom_in_replicates_blocks_witness :
    zoom_in gray2x2 area_1133 2 = some zoomed4x4 ∧
    ∃ out, zoom_in gray2x2 area_1133 2 = some out ∧
      out.width = 2 * gray2x2.width ∧ out.height = 2 * gray2x2.height ∧
      (∀ row col ch dy dx, row < gray2x2.height → col < gray2x2.width →
        ch < gray2x2.colors_number → dy < 2 → dx < 2 →
        ∃ v, sample out (row * 2 + dy) (col * 2 + dx) ch = some v ∧
          sample gray2x2 row col ch = some v) ∧
      (∀ R C ch, R < 2 * gray2x2.height → C < 2 * gray2x2.width →
        ch < gray2x2.colors_number →
        ∃ v, sample out R C ch = some v ∧ sample gray2x2 (R / 2) (C / 2) ch = some v) :=
  ⟨by decide, zoom_in_replicates_blocks gray2x2 area_1133 2 (by decide) (by decide)
    (by decide) (by decide) (by decide) (by decide) (by decide)⟩

/-- C3: on a well-formed buffer of valid shape `flip_horizontally` returns a
buffer with the same width, height and colors_number whose sample at
`(row, col, ch)` is the original sample at `(row, width - 1 - col, ch)`, for
every row, column and channel of the buffer (the centre column included). -/
theorem flip_horizontally_mirrors_columns (img : image)
    (hw : well_formed img) (hv : valid_shape img) :
    ∃ out, flip_horizontally img = some out ∧
      out.width = img.width ∧ out.height = img.height ∧
      out.colors_number = img.colors_number ∧
      ∀ row col ch, row < img.height → col < img.width → ch < img.colors_number →
        ∃ v, sample out row col ch = some v ∧
          sample img row (img.width - 1 - col) ch = some v := by
  have hf := valid_shape_fits hv
  obtain ⟨out, e, ew, eh, ec, _, _, hs⟩ := flip_horizontally_spec img hw hf
  refine ⟨out, e, ew, eh, ec, ?_⟩
  intro row col ch hr hc hch
  obtain ⟨v, hv⟩ := sample_some hw hf hr (show img.width - 1 - col < img.width by omega) hch
  exact ⟨v, by rw [hs row col ch hr hc hch]; exact hv, hv⟩

/-- C3, the scenario of the specification: the 4x4 grayscale buffer `0..15`
becomes the rows `[3,2,1,0]`, `[7,6,5,4]`, `[11,10,9,8]`, `[15,14,13,12]`. -/
theorem flip_horizontally_mirrors_columns_witness :
    flip_horizontally gray4x4 = some mirrored4x4 ∧
    ∃ out, flip_horizontally gray4x4 = some out ∧
      out.width = gray4x4.width ∧ out.height = gray4x4.height ∧
      out.colors_number = gray4x4.colors_number ∧
      ∀ row col ch, row < gray4x4.height → col < gray4x4.width →
        ch < gray4x4.colors_number →
        ∃ v, sample out row col ch = some v ∧
          sample gray4x4 row (gray4x4.width - 1 - col) ch = some v :=
  ⟨by decide, flip_horizontally_mirrors_columns gray4x4 (by decide) (by decide)⟩

/-- C4: on a well-formed buffer of valid shape `flip_vertically` returns a
buffer with the same width, height and colors_number whose sample at
`(row, col, ch)` is the original sample at `(height - 1 - row, col, ch)`, for
every row, column and channel of the buffer (the centre row included). -/
theorem flip_vertically_mirrors_rows (img : image)
    (hw : well_formed img) (hv : valid_shape img) :
    ∃ out, flip_vertically img = some out ∧
      out.width = img.width ∧ out.height = img.height ∧
      out.colors_number = img.colors_number ∧
      ∀ row col ch, row < img.height → col < img.width → ch < img.colors_number →
        ∃ v, sample out row col ch = some v ∧
          sample img (img.height - 1 - row) col ch = some v := by
  have hf := valid_shape_fits hv
  obtain ⟨out, e, ew, eh, ec, _, _, hs⟩ := flip_vertically_spec img hw hf
  refine ⟨out, e, ew, eh, ec, ?_⟩
  intro row col ch hr hc hch
  obtain ⟨v, hv⟩ := sample_some hw hf (show img.height - 1 - row < img.height by omega) hc hch
  exact ⟨v, by rw [hs row col ch hr hc hch]; exact hv, hv⟩

/-- C4 at the 4x4 grayscale buffer `0..15`, whose rows come out in the order
`[12..15]`, `[8..11]`, `[4..7]`, `[0..3]`. -/
theorem flip_vertically_mirrors_rows_witness :
    (flip_vertically gray4x4).map image.data
      = some [12, 13, 14, 15, 8, 9, 10, 11, 4, 5, 6, 7, 0, 1, 2, 3] ∧
    ∃ out, flip_vertically gray4x4 = some out ∧
      out.width = gray4x4.width ∧ out.height = gray4x4.height ∧
      out.colors_number = gray4x4.colors_number ∧
      ∀ row col ch, row < gray4x4.height → col < gray4x4.width →
        ch < gray4x4.colors_number →
        ∃ v, sample out row col ch = some v ∧
          sample gray4x4 (gray4x4.height - 1 - row) col ch = some v :=
  ⟨by decide, flip_vertically_mirrors_rows gray4x4 (by decide) (by decide)⟩

/-- C5: both flips are involutions: on a well-formed buffer of valid shape,
`flip_horizontally` applied twice returns the original buffer (same data,
width, height, colors_number), and so does `flip_vertically` applied twice. -/
theorem flips_are_involutions (img : image) (hw : well_formed img) (hv : valid_shape img) :
    (flip_horizontally img).bind flip_horizontally = some img ∧
    (flip_vertically img).bind flip_vertically = some img := by
  have hf := valid_shape_fits hv
  constructor
  · obtain ⟨o1, e1, w1, h1, c1, m1, l1, s1⟩ := flip_horizontally_spec img hw hf
    have hw1 : well_formed o1 := by
      unfold well_formed at hw ⊢; rw [l1, w1, h1, c1]; exact hw
    have hf1 : fits o1 := by unfold fits at hf ⊢; rw [w1, h1, c1]; exact hf
    obtain ⟨o2, e2, w2, h2, c2, m2, l2, s2⟩ := flip_horizontally_spec o1 hw1 hf1
    rw [e1, Option.some_bind, e2]
    have hw2 : well_formed o2 := by
      unfold well_formed at hw1 ⊢; rw [l2, w2, h2, c2]; exact hw1
    congr 1
    apply image_ext (by rw [w2, w1]) (by rw [h2, h1]) (by rw [c2, c1]) (by rw [m2, m1])
    apply data_eq_of_samples hw hw2 hf (by rw [w2, w1]) (by rw [h2, h1]) (by rw [c2, c1])
    intro r c d hr hc hd
    rw [s2 r c d (by rw [h1]; exact hr) (by rw [w1]; exact hc) (by rw [c1]; exact hd), w1,
      s1 r (img.width - 1 - c) d hr (by omega) hd]
    have : img.width - 1 - (img.width - 1 - c) = c := by omega
    rw [this]
  · obtain ⟨o1, e1, w1, h1, c1, m1, l1, s1⟩ := flip_vertically_spec img hw hf
    have hw1 : well_formed o1 := by
      unfold well_formed at hw ⊢; rw [l1, w1, h1, c1]; exact hw
    have hf1 : fits o1 := by unfold fits at hf ⊢; rw [w1, h1, c1]; exact hf
    obtain ⟨o2, e2, w2, h2, c2, m2, l2, s2⟩ := flip_vertically_spec o1 hw1 hf1
    rw [e1, Option.some_bind, e2]
    have hw2 : well_formed o2 := by
      unfold well_formed at hw1 ⊢; rw [l2, w2, h2, c2]; exact hw1
    congr 1
    apply image_ext (by rw [w2, w1]) (by rw [h2, h1]) (by rw [c2, c1]) (by rw [m2, m1])
    apply data_eq_of_samples hw hw2 hf (by rw [w2, w1]) (by rw [h2, h1]) (by rw [c2, c1])
    intro r c d hr hc hd
    rw [s2 r c d (by rw [h1]; exact hr) (by rw [w1]; exact hc) (by rw [c1]; exact hd), h1,
      s1 (img.height - 1 - r) c d (by omega) hc hd]
    have : img.height - 1 - (img.height - 1 - r) = r := by omega
    rw [this]

/-- C5 at the 4x4 grayscale buffer `0..15`. -/
theorem flips_are_involutions_witness :
    (flip_horizontally gray4x4).bind flip_horizontally = some gray4x4 ∧
    (flip_vertically gray4x4).bind flip_vertically = some gray4x4 :=
  flips_are_involutions gray4x4 (by decide) (by decide)

/-- C6: for a buffer of valid shape, `image_point` computes
`row * width * colors_number + col * colors_number + depth` without overflow
of the 32-bit unsigned range, it is injective on the rows, columns and
channels of the buffer, and its image is exactly the offsets below
`width * height * colors_number`. -/
theorem image_point_bijective (img : image) (hv : valid_shape img) :
    (∀ row col depth, row < img.height → col < img.width → depth < img.colors_number →
      row * img.width * img.colors_number + col * img.colors_number + depth < 2 ^ 32 ∧
      image_point row col depth img
        = row * img.width * img.colors_number + col * img.colors_number + depth ∧
      image_point row col depth img < img.width * img.height * img.colors_number) ∧
    (∀ row col depth row2 col2 depth2,
      row < img.height → col < img.width → depth < img.colors_number →
      row2 < img.height → col2 < img.width → depth2 < img.colors_number →
      image_point row col depth img = image_point row2 col2 depth2 img →
      row = row2 ∧ col = col2 ∧ depth = depth2) ∧
    (∀ n, n < img.width * img.height * img.colors_number →
      ∃ row col depth, row < img.height ∧ col < img.width ∧ depth < img.colors_number ∧
        image_point row col depth img = n) := by
  have hf := valid_shape_fits hv
  refine ⟨?_, ?_, ?_⟩
  · intro row col depth hr hc hd
    have h1 := image_point_exact hf hr hc hd
    have h2 := offset_lt hr hc hd
    unfold fits at hf
    exact ⟨by omega, h1.1, h1.2⟩
  · intro row col depth row2 col2 depth2 hr hc hd hr2 hc2 hd2 h
    rw [(image_point_exact hf hr hc hd).1, (image_point_exact hf hr2 hc2 hd2).1] at h
    exact offset_inj hc hd hc2 hd2 h
  · intro n hn
    obtain ⟨r, c, d, hr, hc, hd, e⟩ := offset_surj hn
    exact ⟨r, c, d, hr, hc, hd, by rw [(image_point_exact hf hr hc hd).1, e]⟩

/-- C6 at the shape of the 4x4 grayscale buffer. -/
theorem image_point_bijective_witness :
    (∀ row col depth, row < gray4x4.height → col < gray4x4.width →
      depth < gray4x4.colors_number →
      row * gray4x4.width * gray4x4.colors_number + col * gray4x4.colors_number + depth
        < 2 ^ 32 ∧
      image_point row col depth gray4x4
        = row * gray4x4.width * gray4x4.colors_number + col * gray4x4.colors_number + depth ∧
      image_point row col depth gray4x4
        < gray4x4.width * gray4x4.height * gray4x4.colors_number) ∧
    (∀ row col depth row2 col2 depth2,
      row < gray4x4.height → col < gray4x4.width → depth < gray4x4.colors_number →
      row2 < gray4x4.height → col2 < gray4x4.width → depth2 < gray4x4.colors_number →
      image_point row col depth gray4x4 = image_point row2 col2 depth2 gray4x4 →
      row = row2 ∧ col = col2 ∧ depth = depth2) ∧
    (∀ n, n < gray4x4.width * gray4x4.height * gray4x4.colors_number →
      ∃ row col depth, row < gray4x4.height ∧ col < gray4x4.width ∧
        depth < gray4x4.colors_number ∧ image_point row col depth gray4x4 = n) :=
  image_point_bijective gray4x4 (by decide)

/-- C7: well-formedness is an invariant of every transform.  For a buffer
within the limits of the loader whose data length is
`width * height * colors_number`, the result of `flip_horizontally`, of
`flip_vertically`, of `cut_area` (region with
`0 <= upper_left <= lower_right` inside the buffer) and of `zoom_in` (buffer
dimensions equal to the dimensions of the region, factor at least 1, result
within 500 by 500) again has data length `width * height * colors_number`
for its new width and height, with colors_number and max_color_value
unchanged. -/
theorem transforms_preserve_well_formed (img : image)
    (hw : well_formed img) (hl : within_limits img) :
    (∃ out, flip_horizontally img = some out ∧ well_formed out ∧
      out.colors_number = img.colors_number ∧
      out.max_color_value = img.max_color_value) ∧
    (∃ out, flip_vertically img = some out ∧ well_formed out ∧
      out.colors_number = img.colors_number ∧
      out.max_color_value = img.max_color_value) ∧
    (∀ area : area2d,
      0 ≤ area.upper_left.x → area.upper_left.x ≤ area.lower_right.x →
      area.lower_right.x ≤ img.width →
      0 ≤ area.upper_left.y → area.upper_left.y ≤ area.lower_right.y →
      area.lower_right.y ≤ img.height →
      ∃ out, cut_area img area = some out ∧ well_formed out ∧
        (out.width : Int) = area.lower_right.x - area.upper_left.x ∧
        (out.height : Int) = area.lower_right.y - area.upper_left.y ∧
        out.colors_number = img.colors_number ∧
        out.max_color_value = img.max_color_value) ∧
    (∀ (area : area2d) (k : Nat),
      area.lower_right.x - area.upper_left.x = img.width →
      area.lower_right.y - area.upper_left.y = img.height →
      1 ≤ k → k * img.width ≤ 500 → k * img.height ≤ 500 →
      ∃ out, zoom_in img area k = some out ∧ well_formed out ∧
        out.width = k * img.width ∧ out.height = k * img.height ∧
        out.colors_number = img.colors_number ∧
        out.max_color_value = img.max_color_value) := by
  have hf := within_limits_fits hl
  obtain ⟨hw500, hh500, hcn⟩ := hl
  unfold MAXIMUM_IMAGE_WIDTH at hw500
  unfold MAXIMUM_IMAGE_HEIGHT at hh500
  refine ⟨?_, ?_, ?_, ?_⟩
  · obtain ⟨out, e, ew, eh, ec, em, el, _⟩ := flip_horizontally_spec img hw hf
    refine ⟨out, e, ?_, ec, em⟩
    unfold well_formed at hw ⊢
    rw [el, ew, eh, ec]; exact hw
  · obtain ⟨out, e, ew, eh, ec, em, el, _⟩ := flip_vertically_spec img hw hf
    refine ⟨out, e, ?_, ec, em⟩
    unfold well_formed at hw ⊢
    rw [el, ew, eh, ec]; exact hw
  · intro area hx0 hx1 hx2 hy0 hy1 hy2
    unfold cut_area
    split
    · rename_i hfull
      obtain ⟨f1, f2, f3, f4⟩ := hfull
      rw [toU32_of_nonneg (by omega) (by omega)] at f3 f4
      exact ⟨img, rfl, hw, by omega, by omega, rfl, rfl⟩
    · obtain ⟨out, e, ew, eh, ec, em, el, _⟩ := cut_area_copy_spec img area hw hf
        hx0 hx1 hx2 (by omega) hy0 hy1 hy2 (by omega)
      exact ⟨out, e, el, ew, eh, ec, em⟩
  · intro area k hx hy hk hkw hkh
    by_cases hz : img.width = 0 ∧ img.height = 0
    · obtain ⟨z1, z2⟩ := hz
      rw [z1] at hx
      rw [z2] at hy
      refine ⟨update_image_data img [] 0 0, zoom_in_empty img area k hx hy, ?_, ?_, ?_,
        rfl, rfl⟩
      · unfold well_formed update_image_data; simp
      · rw [z1]; rfl
      · rw [z2]; rfl
    · have hk500 : k ≤ 500 := by
        rcases Nat.eq_zero_or_pos img.width with h0 | h0
        · have h1 : 0 < img.height := by omega
          have : k * 1 ≤ k * img.height := Nat.mul_le_mul_left _ h1
          omega
        · have : k * 1 ≤ k * img.width := Nat.mul_le_mul_left _ h0
          omega
      have hkw2 : img.width * k ≤ 500 := by rw [Nat.mul_comm]; exact hkw
      have hkh2 : img.height * k ≤ 500 := by rw [Nat.mul_comm]; exact hkh
      have hout : img.width * k * (img.height * k) * img.colors_number < 2 ^ 32 := by
        have h1 : img.width * k * (img.height * k) ≤ 500 * 500 := Nat.mul_le_mul hkw2 hkh2
        rcases hcn with hc | hc <;> rw [hc] <;> omega
      obtain ⟨out, e, ew, eh, ec, em, el, _⟩ := zoom_in_spec img area k img.width img.height
        hw hf hx hy (le_refl _) (le_refl _) (by omega) (by omega) (by omega) (by omega)
        (by omega) hout
      exact ⟨out, e, el, by rw [ew, Nat.mul_comm], by rw [eh, Nat.mul_comm], ec, em⟩

/-- C7 at the 4x4 grayscale buffer `0..15`. -/
theorem transforms_preserve_well_formed_witness :
    (∃ out, flip_horizontally gray4x4 = some out ∧ well_formed out ∧
      out.colors_number = gray4x4.colors_number ∧
      out.max_color_value = gray4x4.max_color_value) ∧
    (∃ out, flip_vertically gray4x4 = some out ∧ well_formed out ∧
      out.colors_number = gray4x4.colors_number ∧
      out.max_color_value = gray4x4.max_color_value) ∧
    (∀ area : area2d,
      0 ≤ area.upper_left.x → area.upper_left.x ≤ area.lower_right.x →
      area.lower_right.x ≤ gray4x4.width →
      0 ≤ area.upper_left.y → area.upper_left.y ≤ area.lower_right.y →
      area.lower_right.y ≤ gray4x4.height →
      ∃ out, cut_area gray4x4 area = some out ∧ well_formed out ∧
        (out.width : Int) = area.lower_right.x - area.upper_left.x ∧
        (out.height : Int) = area.lower_right.y - area.upper_left.y ∧
        out.colors_number = gray4x4.colors_number ∧
        out.max_color_value = gray4x4.max_color_value) ∧
    (∀ (area : area2d) (k : Nat),
      area.lower_right.x - area.upper_left.x = gray4x4.width →
      area.lower_right.y - area.upper_left.y = gray4x4.height →
      1 ≤ k → k * gray4x4.width ≤ 500 → k * gray4x4.height ≤ 500 →
      ∃ out, zoom_in gray4x4 area k = some out ∧ well_formed out ∧
        out.width = k * gray4x4.width ∧ out.height = k * gray4x4.height ∧
        out.colors_number = gray4x4.colors_number ∧
        out.max_color_value = gray4x4.max_color_value) :=
  transforms_preserve_well_formed gray4x4 (by decide) (by decide)

/-- C8, counterexample: for the 4x4 buffer and the region `(0,-1)-(4,4)` none
of `lower_right.x < 0`, `lower_right.x > width`, `upper_left.x < 0`,
`upper_left.y > height` holds over the integers, and `validate_user_area`
returns false all the same: the comparison with the unsigned height converts
`upper_left.y = -1` to `4294967295`. -/
theorem validate_user_area_rejects_negative_y :
    validate_user_area gray4x4 area_above = false ∧
    ¬ (area_above.lower_right.x < 0 ∨ area_above.lower_right.x > gray4x4.width
      ∨ area_above.upper_left.x < 0 ∨ area_above.upper_left.y > gray4x4.height) := by
  decide

/-- C8, amended: for 32-bit signed coordinates and a height below `2^31`,
`validate_user_area` returns false if and only if `lower_right.x < 0` or
`lower_right.x > width` or `upper_left.x < 0` or `upper_left.y > height` or
`upper_left.y < 0` (comparisons over the integers), and true in every other
case, whatever `lower_right.y` is and also when
`upper_left.x > lower_right.x`. -/
theorem validate_user_area_false_iff (img : image) (area : area2d)
    (ht : area_typed area) (hh : img.height < 2 ^ 31) :
    (validate_user_area img area = false ↔
      (area.lower_right.x < 0 ∨ area.lower_right.x > img.width
        ∨ area.upper_left.x < 0 ∨ area.upper_left.y > img.height
        ∨ area.upper_left.y < 0)) ∧
    (validate_user_area img area = true ↔
      ¬ (area.lower_right.x < 0 ∨ area.lower_right.x > img.width
        ∨ area.upper_left.x < 0 ∨ area.upper_left.y > img.height
        ∨ area.upper_left.y < 0)) := by
  obtain ⟨⟨a1, a2⟩, ⟨b1, b2⟩, ⟨c1, c2⟩, ⟨d1, d2⟩⟩ := ht
  have key : (area.lower_right.x < 0 ∨ toU32 area.lower_right.x > img.width
        ∨ area.upper_left.x < 0 ∨ toU32 area.upper_left.y > img.height)
      ↔ (area.lower_right.x < 0 ∨ area.lower_right.x > img.width
        ∨ area.upper_left.x < 0 ∨ area.upper_left.y > img.height
        ∨ area.upper_left.y < 0) := by
    unfold toU32
    omega
  unfold validate_user_area
  rw [← key]
  constructor
  · split <;> simp_all
  · split <;> simp_all

/-- C8, amended, at the 4x4 buffer and the region `(0,-1)-(4,4)`. -/
theorem validate_user_area_false_iff_witness :
    (validate_user_area gray4x4 area_above = false ↔
      (area_above.lower_right.x < 0 ∨ area_above.lower_right.x > gray4x4.width
        ∨ area_above.upper_left.x < 0 ∨ area_above.upper_left.y > gray4x4.height
        ∨ area_above.upper_left.y < 0)) ∧
    (validate_user_area gray4x4 area_above = true ↔
      ¬ (area_above.lower_right.x < 0 ∨ area_above.lower_right.x > gray4x4.width
        ∨ area_above.upper_left.x < 0 ∨ area_above.upper_left.y > gray4x4.height
        ∨ area_above.upper_left.y < 0)) :=
  validate_user_area_false_iff gray4x4 area_above (by decide) (by decide)

/-- C9, the failing input: `validate_user_area` accepts the region
`(0,0)-(4,5)` for the well-formed 4x4 buffer, and `cut_area` then reads the
offset `image_point 4 0 0 = 16`, which lies outside the 16 samples of the
buffer, so it has no defined result. -/
theorem validate_user_area_accepts_overrun :
    well_formed gray4x4 ∧ valid_shape gray4x4 ∧
    validate_user_area gray4x4 area_0045 = true ∧
    image_point (u32 (toU32 area_0045.upper_left.y + 4))
      (u32 (toU32 area_0045.upper_left.x + 0)) 0 gray4x4 = 16 ∧
    gray4x4.data.length = 16 ∧
    cut_area gray4x4 area_0045 = none := by
  decide

/-- C10, counterexample: for the 4x4 buffer and the region `(1,1)-(1,3)`,
which is not the full-bounds region and has `lower_right.x - upper_left.x = 0`,
`cut_area` does not fail: it returns a replacement buffer of width 0 and
height 2 without samples. -/
theorem cut_area_empty_region_returns :
    area_1113.lower_right.x - area_1113.upper_left.x ≤ 0 ∧
    cut_area gray4x4 area_1113 = some (update_image_data gray4x4 [] 0 2) := by
  decide

/-- C10, amended: for every buffer and every region other than the
full-bounds region with `lower_right.x - upper_left.x = 0` or
`lower_right.y - upper_left.y = 0` (both differences within the `int` range),
`cut_area` signals nothing and returns a replacement buffer without samples,
whose width and height are the two differences converted to `uint`. -/
theorem cut_area_of_empty_region (img : image) (area : area2d)
    (hnf : ¬ (area.upper_left.x = 0 ∧ area.upper_left.y = 0
      ∧ toU32 area.lower_right.x = img.width ∧ toU32 area.lower_right.y = img.height))
    (hdx : is_i32 (area.lower_right.x - area.upper_left.x))
    (hdy : is_i32 (area.lower_right.y - area.upper_left.y))
    (h0 : area.lower_right.x - area.upper_left.x = 0
      ∨ area.lower_right.y - area.upper_left.y = 0) :
    cut_area img area = some (update_image_data img []
      (toU32 (area.lower_right.x - area.upper_left.x))
      (toU32 (area.lower_right.y - area.upper_left.y))) := by
  unfold cut_area
  rw [if_neg hnf]
  exact cut_area_copy_empty img area hdx hdy h0

/-- C10, amended, at the 4x4 buffer and the region `(1,1)-(1,3)`. -/
theorem cut_area_of_empty_region_witness :
    cut_area gray4x4 area_1113 = some (update_image_data gray4x4 []
      (toU32 (area_1113.lower_right.x - area_1113.upper_left.x))
      (toU32 (area_1113.lower_right.y - area_1113.upper_left.y))) :=
  cut_area_of_empty_region gray4x4 area_1113 (by decide) (by decide) (by decide)
    (by decide)

/-- C11, the failing input: for the 2x2 buffer and the zoom factor
`2147483648` the exact products `zoom_factor * width` and
`zoom_factor * height` are `4294967296`, far above 500, but the `uint`
products wrap to 0 and `validate_zoom_factor` returns true; `zoom_in` with
this factor has no result. -/
theorem validate_zoom_factor_accepts_wrapped :
    valid_shape gray2x2 ∧
    (2147483648 : Nat) < 2 ^ 32 ∧
    2147483648 * gray2x2.width > 500 ∧
    2147483648 * gray2x2.height > 500 ∧
    u32 (2147483648 * gray2x2.width) = 0 ∧
    validate_zoom_factor gray2x2 2147483648 = true ∧
    zoom_in gray2x2 area_1133 2147483648 = none := by
  decide

/-- C12: `validate_zoom_factor` never rejects a valid factor: for a buffer
with `0 < width, height <= 500` it returns true for every factor
`zoom_factor >= 1` with `zoom_factor * width <= 500` and
`zoom_factor * height <= 500`; in particular it accepts the factor 1. -/
theorem validate_zoom_factor_accepts_valid (img : image)
    (hw : 0 < img.width ∧ img.width ≤ 500) (hh : 0 < img.height ∧ img.height ≤ 500) :
    (∀ zoom_factor : Nat, 1 ≤ zoom_factor →
      zoom_factor * img.width ≤ 500 → zoom_factor * img.height ≤ 500 →
      validate_zoom_factor img zoom_factor = true) ∧
    validate_zoom_factor img 1 = true := by
  have h1 : ∀ k : Nat, 1 ≤ k → k * img.width ≤ 500 → k * img.height ≤ 500 →
      validate_zoom_factor img k = true := by
    intro k h1 h2 h3
    unfold validate_zoom_factor
    rw [if_neg (by omega)]
    simp only
    rw [u32_of_lt (by omega), u32_of_lt (by omega)]
    unfold MAXIMUM_IMAGE_WIDTH MAXIMUM_IMAGE_HEIGHT
    rw [if_neg (by omega)]
  exact ⟨h1, h1 1 (le_refl 1) (by omega) (by omega)⟩

/-- C12 at the 2x2 buffer, for which the factor 250 is accepted as well. -/
theorem validate_zoom_factor_accepts_valid_witness :
    validate_zoom_factor gray2x2 250 = true ∧
    ((∀ zoom_factor : Nat, 1 ≤ zoom_factor →
      zoom_factor * gray2x2.width ≤ 500 → zoom_factor * gray2x2.height ≤ 500 →
      validate_zoom_factor gray2x2 zoom_factor = true) ∧
    validate_zoom_factor gray2x2 1 = true) :=
  ⟨by decide, validate_zoom_factor_accepts_valid gray2x2 (by decide) (by decide)⟩

/-- C13: for every buffer (width and height being `uint` values), `cut_area`
with the region `upper_left = (0,0)`, `lower_right = (width, height)` returns
the buffer unchanged: same data, width, height, colors_number and
max_color_value. -/
theorem cut_area_full_bounds (img : image) (area : area2d)
    (hw : img.width < 2 ^ 32) (hh : img.height < 2 ^ 32)
    (hul : area.upper_left = ⟨0, 0⟩)
    (hx : area.lower_right.x = img.width) (hy : area.lower_right.y = img.height) :
    cut_area img area = some img := by
  unfold cut_area
  rw [if_pos]
  rw [hul, hx, hy, toU32_natCast hw, toU32_natCast hh]
  exact ⟨rfl, rfl, rfl, rfl⟩

/-- C13 at the 4x4 buffer and the region `(0,0)-(4,4)`. -/
theorem cut_area_full_bounds_witness : cut_area gray4x4 area_0044 = some gray4x4 :=
  cut_area_full_bounds gray4x4 area_0044 (by decide) (by decide) (by decide) (by decide)
    (by decide)

/-! ## Further facts about the transforms -/

theorem well_formed_of_same_shape {a b : image} (hw : well_formed a)
    (l : b.data.length = a.data.length) (e1 : b.width = a.width)
    (e2 : b.height = a.height) (e3 : b.colors_number = a.colors_number) :
    well_formed b := by
  unfold well_formed at hw ⊢
  rw [l, e1, e2, e3]; exact hw

theorem fits_of_same_shape {a b : image} (hf : fits a) (e1 : b.width = a.width)
    (e2 : b.height = a.height) (e3 : b.colors_number = a.colors_number) : fits b := by
  unfold fits at hf ⊢
  rw [e1, e2, e3]; exact hf

/-- What `cut_area` computes for a region inside a buffer within the limits,
the early return included: a well-formed buffer with the dimensions of the
region whose sample at `(r, c, d)` is the original sample at
`(upper_left.y + r, upper_left.x + c, d)`. -/
theorem cut_area_spec (img : image) (area : area2d)
    (hw : well_formed img) (hl : within_limits img)
    (hx0 : 0 ≤ area.upper_left.x) (hx1 : area.upper_left.x ≤ area.lower_right.x)
    (hx2 : area.lower_right.x ≤ img.width)
    (hy0 : 0 ≤ area.upper_left.y) (hy1 : area.upper_left.y ≤ area.lower_right.y)
    (hy2 : area.lower_right.y ≤ img.height) :
    ∃ out, cut_area img area = some out ∧
      (out.width : Int) = area.lower_right.x - area.upper_left.x ∧
      (out.height : Int) = area.lower_right.y - area.upper_left.y ∧
      out.colors_number = img.colors_number ∧
      out.max_color_value = img.max_color_value ∧
      well_formed out ∧
      ∀ r c d, r < out.height → c < out.width → d < img.colors_number →
        sample out r c d
          = sample img (area.upper_left.y.toNat + r) (area.upper_left.x.toNat + c) d := by
  have hf := within_limits_fits hl
  obtain ⟨hw500, hh500, _⟩ := hl
  unfold MAXIMUM_IMAGE_WIDTH at hw500
  unfold MAXIMUM_IMAGE_HEIGHT at hh500
  unfold cut_area
  split
  · rename_i hfull
    obtain ⟨f1, f2, f3, f4⟩ := hfull
    rw [toU32_of_nonneg (by omega) (by omega)] at f3 f4
    refine ⟨img, rfl, by omega, by omega, rfl, rfl, hw, ?_⟩
    intro r c d _ _ _
    rw [f1, f2]
    simp
  · obtain ⟨out, e, ew, eh, ec, em, el, hs⟩ := cut_area_copy_spec img area hw hf
      hx0 hx1 hx2 (by omega) hy0 hy1 hy2 (by omega)
    exact ⟨out, e, ew, eh, ec, em, el, hs⟩

/-- C14: for a well-formed buffer of valid shape whose width and height are
the columns and rows of the region, `zoom_in` with the factor 1 returns a
buffer with the same width, the same height and the same data as its input
(the same buffer). -/
theorem zoom_in_factor_one (img : image) (area : area2d)
    (hw : well_formed img) (hv : valid_shape img)
    (hx : area.lower_right.x - area.upper_left.x = img.width)
    (hy : area.lower_right.y - area.upper_left.y = img.height) :
    zoom_in img area 1 = some img ∧
    ∃ out, zoom_in img area 1 = some out ∧ out.width = img.width ∧
      out.height = img.height ∧ out.data = img.data := by
  have hf := valid_shape_fits hv
  have hfits := hf
  unfold fits at hfits
  obtain ⟨_, hw500, _, hh500, _⟩ := hv
  unfold MAXIMUM_IMAGE_WIDTH at hw500
  unfold MAXIMUM_IMAGE_HEIGHT at hh500
  obtain ⟨out, e, ew, eh, ec, em, el, hs⟩ := zoom_in_spec img area 1 img.width img.height
    hw hf hx hy (le_refl _) (le_refl _) (by omega) (by omega) (by omega) (by omega)
    (by omega) (by simpa using hfits)
  rw [Nat.mul_one] at ew eh
  have hd : out.data = img.data := by
    apply data_eq_of_samples hw el hf ew eh ec
    intro r c d hr hc hd
    have := hs r c d (by omega) (by omega) hd
    simpa using this
  have himg : out = img := image_ext ew eh ec em hd
  rw [himg] at e
  exact ⟨e, img, e, rfl, rfl, rfl⟩

/-- C14 at the 2x2 buffer and the region `(1,1)-(3,3)`. -/
theorem zoom_in_factor_one_witness :
    zoom_in gray2x2 area_1133 1 = some gray2x2 ∧
    ∃ out, zoom_in gray2x2 area_1133 1 = some out ∧ out.width = gray2x2.width ∧
      out.height = gray2x2.height ∧ out.data = gray2x2.data :=
  zoom_in_factor_one gray2x2 area_1133 (by decide) (by decide) (by decide) (by decide)

/-- C16: the full-bounds short-circuit of `cut_area` is only an optimization:
for a well-formed buffer of valid shape and a region for which the early
return fires, the copy loop after the early return produces a buffer with the
same width, height and data as the input, so `cut_area` with and without the
early return agree. -/
theorem cut_area_early_return_is_optimization (img : image) (area : area2d)
    (hw : well_formed img) (hv : valid_shape img) (ht : area_typed area)
    (hfire : area.upper_left.x = 0 ∧ area.upper_left.y = 0
      ∧ toU32 area.lower_right.x = img.width ∧ toU32 area.lower_right.y = img.height) :
    cut_area_copy img area = some img ∧ cut_area img area = cut_area_copy img area := by
  have hf := valid_shape_fits hv
  obtain ⟨_, hw500, _, hh500, _⟩ := hv
  unfold MAXIMUM_IMAGE_WIDTH at hw500
  unfold MAXIMUM_IMAGE_HEIGHT at hh500
  obtain ⟨f1, f2, f3, f4⟩ := hfire
  obtain ⟨_, _, ⟨c1, c2⟩, ⟨d1, d2⟩⟩ := ht
  have gx : area.lower_right.x = img.width := by
    unfold toU32 at f3; omega
  have gy : area.lower_right.y = img.height := by
    unfold toU32 at f4; omega
  obtain ⟨out, e, ew, eh, ec, em, el, hs⟩ := cut_area_copy_spec img area hw hf
    (by omega) (by omega) (by omega) (by omega) (by omega) (by omega) (by omega) (by omega)
  have ew2 : out.width = img.width := by omega
  have eh2 : out.height = img.height := by omega
  have hd : out.data = img.data := by
    apply data_eq_of_samples hw el hf ew2 eh2 ec
    intro r c d hr hc hd
    have := hs r c d (by omega) (by omega) hd
    rw [f1, f2] at this
    simpa using this
  have himg : out = img := image_ext ew2 eh2 ec em hd
  rw [himg] at e
  refine ⟨e, ?_⟩
  unfold cut_area
  rw [if_pos ⟨f1, f2, f3, f4⟩, e]

/-- C16 at the 4x4 buffer and its full-bounds region `(0,0)-(4,4)`. -/
theorem cut_area_early_return_is_optimization_witness :
    cut_area_copy gray4x4 area_0044 = some gray4x4 ∧
    cut_area gray4x4 area_0044 = cut_area_copy gray4x4 area_0044 :=
  cut_area_early_return_is_optimization gray4x4 area_0044 (by decide) (by decide)
    (by decide) (by decide)

/-- C18: the crop-then-zoom flow of `main` is nearest-neighbour upscaling of
the selected rectangle of the original image.  For a well-formed buffer of
valid shape, a region with `0 <= upper_left.x < lower_right.x <= width` and
`0 <= upper_left.y < lower_right.y <= height`, and a factor `k >= 1` with
`k * (lower_right.x - upper_left.x) <= 500` and
`k * (lower_right.y - upper_left.y) <= 500`, `cut_area` followed by `zoom_in`
with the same region returns a buffer of width
`k * (lower_right.x - upper_left.x)` and height
`k * (lower_right.y - upper_left.y)` whose sample at `(R, C, ch)` is the
original sample at `(upper_left.y + R / k, upper_left.x + C / k, ch)`. -/
theorem crop_then_zoom_upscales (img : image) (area : area2d) (k : Nat)
    (hw : well_formed img) (hv : valid_shape img)
    (hx : 0 ≤ area.upper_left.x ∧ area.upper_left.x < area.lower_right.x
      ∧ area.lower_right.x ≤ img.width)
    (hy : 0 ≤ area.upper_left.y ∧ area.upper_left.y < area.lower_right.y
      ∧ area.lower_right.y ≤ img.height)
    (hk : 1 ≤ k)
    (hkw : (k : Int) * (area.lower_right.x - area.upper_left.x) ≤ 500)
    (hkh : (k : Int) * (area.lower_right.y - area.upper_left.y) ≤ 500) :
    ∃ out, (cut_area img area).bind (fun cropped => zoom_in cropped area k) = some out ∧
      (out.width : Int) = k * (area.lower_right.x - area.upper_left.x) ∧
      (out.height : Int) = k * (area.lower_right.y - area.upper_left.y) ∧
      ∀ R C ch, R < out.height → C < out.width → ch < img.colors_number →
        ∃ v, sample out R C ch = some v ∧
          sample img (area.upper_left.y.toNat + R / k) (area.upper_left.x.toNat + C / k) ch
            = some v := by
  have hf := valid_shape_fits hv
  have hl := valid_shape_within_limits hv
  obtain ⟨_, hw500, _, hh500, hcn⟩ := hv
  unfold MAXIMUM_IMAGE_WIDTH at hw500
  unfold MAXIMUM_IMAGE_HEIGHT at hh500
  obtain ⟨hx0, hx1, hx2⟩ := hx
  obtain ⟨hy0, hy1, hy2⟩ := hy
  obtain ⟨c, e, ew, eh, ec, em, el, hs⟩ := cut_area_spec img area hw hl
    hx0 (le_of_lt hx1) hx2 hy0 (le_of_lt hy1) hy2
  rw [← ew] at hkw
  rw [← eh] at hkh
  have hkw2 : k * c.width ≤ 500 := by exact_mod_cast hkw
  have hkh2 : k * c.height ≤ 500 := by exact_mod_cast hkh
  have hcw0 : 0 < c.width := by omega
  have hch0 : 0 < c.height := by omega
  have hk500 : k ≤ 500 := by
    have : k * 1 ≤ k * c.width := Nat.mul_le_mul_left _ hcw0
    omega
  have hkw3 : c.width * k ≤ 500 := by rw [Nat.mul_comm]; exact hkw2
  have hkh3 : c.height * k ≤ 500 := by rw [Nat.mul_comm]; exact hkh2
  have hcw500 : c.width ≤ 500 := by omega
  have hch500 : c.height ≤ 500 := by omega
  have hfc : fits c :=
    within_limits_fits ⟨hcw500, hch500, by rw [ec]; exact hcn⟩
  have hout : c.width * k * (c.height * k) * c.colors_number < 2 ^ 32 := by
    have h1 : c.width * k * (c.height * k) ≤ 500 * 500 := Nat.mul_le_mul hkw3 hkh3
    rw [ec]
    rcases hcn with hc | hc <;> rw [hc] <;> omega
  obtain ⟨out, e2, ew2, eh2, ec2, _, _, hs2⟩ := zoom_in_spec c area k c.width c.height
    el hfc ew.symm eh.symm (le_refl _) (le_refl _) (by omega) (by omega) (by omega)
    (by omega) (by omega) hout
  refine ⟨out, by rw [e, Option.some_bind, e2], ?_, ?_, ?_⟩
  · rw [ew2, ← ew]; push_cast; ring
  · rw [eh2, ← eh]; push_cast; ring
  · intro R C ch hR hC hch
    rw [eh2] at hR
    rw [ew2] at hC
    have hk0 : 0 < k := hk
    have hRk : R / k < c.height := (Nat.div_lt_iff_lt_mul hk0).2 hR
    have hCk : C / k < c.width := (Nat.div_lt_iff_lt_mul hk0).2 hC
    obtain ⟨v, hv⟩ := sample_some hw hf
      (show area.upper_left.y.toNat + R / k < img.height by omega)
      (show area.upper_left.x.toNat + C / k < img.width by omega) hch
    refine ⟨v, ?_, hv⟩
    rw [hs2 R C ch hR hC (by rw [ec]; exact hch), hs (R / k) (C / k) ch hRk hCk hch]
    exact hv

/-- C18 at the 4x4 buffer, the region `(1,1)-(3,3)` and the factor 2, which
give the 4x4 buffer of the 2x2 blocks of `[5,6,9,10]`. -/
theorem crop_then_zoom_upscales_witness :
    (cut_area gray4x4 area_1133).bind (fun cropped => zoom_in cropped area_1133 2)
      = some zoomed4x4 ∧
    ∃ out, (cut_area gray4x4 area_1133).bind (fun cropped => zoom_in cropped area_1133 2)
        = some out ∧
      (out.width : Int)
        = ((2 : Nat) : Int) * (area_1133.lower_right.x - area_1133.upper_left.x) ∧
      (out.height : Int)
        = ((2 : Nat) : Int) * (area_1133.lower_right.y - area_1133.upper_left.y) ∧
      ∀ R C ch, R < out.height → C < out.width → ch < gray4x4.colors_number →
        ∃ v, sample out R C ch = some v ∧
          sample gray4x4 (area_1133.upper_left.y.toNat + R / 2)
            (area_1133.upper_left.x.toNat + C / 2) ch = some v :=
  ⟨by decide, crop_then_zoom_upscales gray4x4 area_1133 2 (by decide) (by decide)
    (by decide) (by decide) (by decide) (by decide) (by decide)⟩

/-- C20: the two flips commute: for a well-formed buffer of valid shape,
`flip_vertically` followed by `flip_horizontally` (the order of `main`)
returns the same buffer as `flip_horizontally` followed by `flip_vertically`,
and the sample of that buffer at `(row, col, ch)` is the original sample at
`(height - 1 - row, width - 1 - col, ch)`. -/
theorem flips_commute (img : image) (hw : well_formed img) (hv : valid_shape img) :
    ∃ out, (flip_vertically img).bind flip_horizontally = some out ∧
      (flip_horizontally img).bind flip_vertically = some out ∧
      ∀ row col ch, row < img.height → col < img.width → ch < img.colors_number →
        ∃ v, sample out row col ch = some v ∧
          sample img (img.height - 1 - row) (img.width - 1 - col) ch = some v := by
  have hf := valid_shape_fits hv
  obtain ⟨o1, a1, w1, h1, c1, m1, l1, s1⟩ := flip_vertically_spec img hw hf
  have hwo1 := well_formed_of_same_shape hw l1 w1 h1 c1
  have hfo1 := fits_of_same_shape hf w1 h1 c1
  obtain ⟨o2, a2, w2, h2, c2, m2, l2, s2⟩ := flip_horizontally_spec o1 hwo1 hfo1
  have hwo2 := well_formed_of_same_shape hwo1 l2 w2 h2 c2
  have hfo2 := fits_of_same_shape hfo1 w2 h2 c2
  obtain ⟨p1, b1, x1, y1, z1, n1, k1, t1⟩ := flip_horizontally_spec img hw hf
  have hwp1 := well_formed_of_same_shape hw k1 x1 y1 z1
  have hfp1 := fits_of_same_shape hf x1 y1 z1
  obtain ⟨p2, b2, x2, y2, z2, n2, k2, t2⟩ := flip_vertically_spec p1 hwp1 hfp1
  have hwp2 := well_formed_of_same_shape hwp1 k2 x2 y2 z2
  have so2 : ∀ row col ch, row < img.height → col < img.width → ch < img.colors_number →
      sample o2 row col ch = sample img (img.height - 1 - row) (img.width - 1 - col) ch := by
    intro row col ch hr hc hch
    rw [s2 row col ch (by rw [h1]; exact hr) (by rw [w1]; exact hc) (by rw [c1]; exact hch),
      w1, s1 row (img.width - 1 - col) ch hr (by omega) hch]
  have sp2 : ∀ row col ch, row < img.height → col < img.width → ch < img.colors_number →
      sample p2 row col ch = sample img (img.height - 1 - row) (img.width - 1 - col) ch := by
    intro row col ch hr hc hch
    rw [t2 row col ch (by rw [y1]; exact hr) (by rw [x1]; exact hc) (by rw [z1]; exact hch),
      y1, t1 (img.height - 1 - row) col ch (by omega) hc hch]
  have hd : p2.data = o2.data := by
    apply data_eq_of_samples hwo2 hwp2 hfo2 (by rw [x2, x1, w2, w1]) (by rw [y2, y1, h2, h1])
      (by rw [z2, z1, c2, c1])
    intro r c d hr hc hd
    rw [h2, h1] at hr
    rw [w2, w1] at hc
    rw [c2, c1] at hd
    rw [sp2 r c d hr hc hd, so2 r c d hr hc hd]
  have hp : p2 = o2 := image_ext (by rw [x2, x1, w2, w1]) (by rw [y2, y1, h2, h1])
    (by rw [z2, z1, c2, c1]) (by rw [n2, n1, m2, m1]) hd
  refine ⟨o2, by rw [a1, Option.some_bind, a2], by rw [b1, Option.some_bind, b2, hp], ?_⟩
  intro row col ch hr hc hch
  obtain ⟨v, hv⟩ := sample_some hw hf (show img.height - 1 - row < img.height by omega)
    (show img.width - 1 - col < img.width by omega) hch
  exact ⟨v, by rw [so2 row col ch hr hc hch]; exact hv, hv⟩

/-- C20 at the 4x4 buffer `0..15`, which both orders turn by half a turn. -/
theorem flips_commute_witness :
    (flip_vertically gray4x4).bind flip_horizontally = some turned4x4 ∧
    ∃ out, (flip_vertically gray4x4).bind flip_horizontally = some out ∧
      (flip_horizontally gray4x4).bind flip_vertically = some out ∧
      ∀ row col ch, row < gray4x4.height → col < gray4x4.width →
        ch < gray4x4.colors_number →
        ∃ v, sample out row col ch = some v ∧
          sample gray4x4 (gray4x4.height - 1 - row) (gray4x4.width - 1 - col) ch = some v :=
  ⟨by decide, flips_commute gray4x4 (by decide) (by decide)⟩

/-! ## The swaps of the flips -/

/-- The loops of `flip_horizontally` perform the swaps of
`flip_horizontally_swaps`, in order. -/
theorem flip_horizontally_eq_swaps (img : image) :
    flip_horizontally img
      = ((flip_horizontally_swaps img).foldlM (fun data p => swap data p.1 p.2) img.data).map
          (fun data => { img with data := data }) := by
  unfold flip_horizontally flip_horizontally_swaps
  rw [forLoop3_eq, List.foldlM_map]

/-- The loops of `flip_vertically` perform the swaps of
`flip_vertically_swaps`, in order. -/
theorem flip_vertically_eq_swaps (img : image) :
    flip_vertically img
      = ((flip_vertically_swaps img).foldlM (fun data p => swap data p.1 p.2) img.data).map
          (fun data => { img with data := data }) := by
  unfold flip_vertically flip_vertically_swaps
  rw [forLoop3_eq, List.foldlM_map]

/-- The offsets of the swaps of `flip_horizontally` are exact. -/
theorem flip_horizontally_swaps_exact (img : image) (hf : fits img)
    (t : Nat × Nat × Nat) (ht : t ∈ triples img.height (img.width / 2) img.colors_number) :
    image_point t.1 t.2.1 t.2.2 img
        = t.1 * img.width * img.colors_number + t.2.1 * img.colors_number + t.2.2
    ∧ image_point t.1 (u32_sub (u32_sub img.width t.2.1) 1) t.2.2 img
        = t.1 * img.width * img.colors_number
          + (img.width - 1 - t.2.1) * img.colors_number + t.2.2 := by
  obtain ⟨h1, h2, h3⟩ := mem_triples.1 ht
  rw [mirror_index (by omega) (width_lt_of_fits hf (by omega) (by omega))]
  exact ⟨(image_point_exact hf h1 (by omega) h3).1, (image_point_exact hf h1 (by omega) h3).1⟩

/-- The offsets of the swaps of `flip_vertically` are exact. -/
theorem flip_vertically_swaps_exact (img : image) (hf : fits img)
    (t : Nat × Nat × Nat) (ht : t ∈ triples (img.height / 2) img.width img.colors_number) :
    image_point t.1 t.2.1 t.2.2 img
        = t.1 * img.width * img.colors_number + t.2.1 * img.colors_number + t.2.2
    ∧ image_point (u32_sub (u32_sub img.height t.1) 1) t.2.1 t.2.2 img
        = (img.height - 1 - t.1) * img.width * img.colors_number
          + t.2.1 * img.colors_number + t.2.2 := by
  obtain ⟨h1, h2, h3⟩ := mem_triples.1 ht
  rw [mirror_index (by omega) (height_lt_of_fits hf (by omega) (by omega))]
  exact ⟨(image_point_exact hf (by omega) h2 h3).1, (image_point_exact hf (by omega) h2 h3).1⟩

/-- In `flip_horizontally` the two offsets of a swap differ and lie inside
the sample array. -/
theorem flip_horizontally_swaps_bounds (img : image) (hw : well_formed img) (hf : fits img) :
    ∀ p ∈ flip_horizontally_swaps img,
      p.1 ≠ p.2 ∧ p.1 < img.data.length ∧ p.2 < img.data.length := by
  unfold well_formed at hw
  intro p hp
  unfold flip_horizontally_swaps at hp
  obtain ⟨t, ht, rfl⟩ := List.mem_map.1 hp
  obtain ⟨h1, h2, h3⟩ := mem_triples.1 ht
  obtain ⟨e1, e2⟩ := flip_horizontally_swaps_exact img hf t ht
  simp only
  rw [e1, e2, hw]
  refine ⟨?_, offset_lt h1 (by omega) h3, offset_lt h1 (by omega) h3⟩
  intro h
  obtain ⟨_, x2, _⟩ := offset_inj (by omega) h3 (by omega) h3 h
  omega

/-- In `flip_vertically` the two offsets of a swap differ and lie inside the
sample array. -/
theorem flip_vertically_swaps_bounds (img : image) (hw : well_formed img) (hf : fits img) :
    ∀ p ∈ flip_vertically_swaps img,
      p.1 ≠ p.2 ∧ p.1 < img.data.length ∧ p.2 < img.data.length := by
  unfold well_formed at hw
  intro p hp
  unfold flip_vertically_swaps at hp
  obtain ⟨t, ht, rfl⟩ := List.mem_map.1 hp
  obtain ⟨h1, h2, h3⟩ := mem_triples.1 ht
  obtain ⟨e1, e2⟩ := flip_vertically_swaps_exact img hf t ht
  simp only
  rw [e1, e2, hw]
  refine ⟨?_, offset_lt (by omega) h2 h3, offset_lt (by omega) h2 h3⟩
  intro h
  obtain ⟨x1, _, _⟩ := offset_inj h2 h3 h2 h3 h
  omega

/-- No two swaps of `flip_horizontally` have an offset in common. -/
theorem flip_horizontally_swaps_disjoint (img : image) (hf : fits img) :
    (flip_horizontally_swaps img).Pairwise disjoint_swaps := by
  unfold flip_horizontally_swaps
  rw [List.pairwise_map]
  apply List.Nodup.pairwise_of_forall_ne (nodup_triples _ _ _)
  intro t ht u hu hne
  obtain ⟨h1, h2, h3⟩ := mem_triples.1 ht
  obtain ⟨k1, k2, k3⟩ := mem_triples.1 hu
  obtain ⟨e1, e2⟩ := flip_horizontally_swaps_exact img hf t ht
  obtain ⟨g1, g2⟩ := flip_horizontally_swaps_exact img hf u hu
  unfold disjoint_swaps
  simp only
  rw [e1, e2, g1, g2]
  refine ⟨?_, ?_, ?_, ?_⟩
  · intro h
    obtain ⟨x1, x2, x3⟩ := offset_inj (by omega) h3 (by omega) k3 h
    exact hne (Prod.ext x1 (Prod.ext x2 x3))
  · intro h
    obtain ⟨x1, x2, x3⟩ := offset_inj (by omega) h3 (by omega) k3 h
    omega
  · intro h
    obtain ⟨x1, x2, x3⟩ := offset_inj (by omega) h3 (by omega) k3 h
    omega
  · intro h
    obtain ⟨x1, x2, x3⟩ := offset_inj (by omega) h3 (by omega) k3 h
    exact hne (Prod.ext x1 (Prod.ext (by omega) x3))

/-- No two swaps of `flip_vertically` have an offset in common. -/
theorem flip_vertically_swaps_disjoint (img : image) (hf : fits img) :
    (flip_vertically_swaps img).Pairwise disjoint_swaps := by
  unfold flip_vertically_swaps
  rw [List.pairwise_map]
  apply List.Nodup.pairwise_of_forall_ne (nodup_triples _ _ _)
  intro t ht u hu hne
  obtain ⟨h1, h2, h3⟩ := mem_triples.1 ht
  obtain ⟨k1, k2, k3⟩ := mem_triples.1 hu
  obtain ⟨e1, e2⟩ := flip_vertically_swaps_exact img hf t ht
  obtain ⟨g1, g2⟩ := flip_vertically_swaps_exact img hf u hu
  unfold disjoint_swaps
  simp only
  rw [e1, e2, g1, g2]
  refine ⟨?_, ?_, ?_, ?_⟩
  · intro h
    obtain ⟨x1, x2, x3⟩ := offset_inj h2 h3 k2 k3 h
    exact hne (Prod.ext x1 (Prod.ext x2 x3))
  · intro h
    obtain ⟨x1, x2, x3⟩ := offset_inj h2 h3 k2 k3 h
    omega
  · intro h
    obtain ⟨x1, x2, x3⟩ := offset_inj h2 h3 k2 k3 h
    omega
  · intro h
    obtain ⟨x1, x2, x3⟩ := offset_inj h2 h3 k2 k3 h
    exact hne (Prod.ext (by omega) (Prod.ext x2 x3))

/-- C19: in each flip every pair is swapped exactly once.  For a well-formed
buffer of valid shape, the loops of `flip_horizontally` (and likewise of
`flip_vertically`) perform the swaps listed in order by
`flip_horizontally_swaps`; in every one of them the source offset and the
destination offset differ and both lie below
`width * height * colors_number`, the length of the sample array; and no two
of them have an offset in common. -/
theorem flips_swap_each_pair_once (img : image) (hw : well_formed img) (hv : valid_shape img) :
    (flip_horizontally img
        = ((flip_horizontally_swaps img).foldlM
            (fun data p => swap data p.1 p.2) img.data).map
          (fun data => { img with data := data }) ∧
      (∀ p ∈ flip_horizontally_swaps img,
        p.1 ≠ p.2 ∧ p.1 < img.width * img.height * img.colors_number
          ∧ p.2 < img.width * img.height * img.colors_number) ∧
      (flip_horizontally_swaps img).Pairwise disjoint_swaps) ∧
    (flip_vertically img
        = ((flip_vertically_swaps img).foldlM
            (fun data p => swap data p.1 p.2) img.data).map
          (fun data => { img with data := data }) ∧
      (∀ p ∈ flip_vertically_swaps img,
        p.1 ≠ p.2 ∧ p.1 < img.width * img.height * img.colors_number
          ∧ p.2 < img.width * img.height * img.colors_number) ∧
      (flip_vertically_swaps img).Pairwise disjoint_swaps) := by
  have hf := valid_shape_fits hv
  have hlen : img.data.length = img.width * img.height * img.colors_number := hw
  refine ⟨⟨flip_horizontally_eq_swaps img, ?_, flip_horizontally_swaps_disjoint img hf⟩,
    ⟨flip_vertically_eq_swaps img, ?_, flip_vertically_swaps_disjoint img hf⟩⟩
  · intro p hp
    have := flip_horizontally_swaps_bounds img hw hf p hp
    rw [hlen] at this
    exact this
  · intro p hp
    have := flip_vertically_swaps_bounds img hw hf p hp
    rw [hlen] at this
    exact this

/-- C19 at the 4x4 buffer `0..15`, whose horizontal flip consists of the eight
swaps `(0,3), (1,2), (4,7), (5,6), (8,11), (9,10), (12,15), (13,14)`. -/
theorem flips_swap_each_pair_once_witness :
    flip_horizontally_swaps gray4x4
      = [(0, 3), (1, 2), (4, 7), (5, 6), (8, 11), (9, 10), (12, 15), (13, 14)] ∧
    flip_vertically_swaps gray4x4
      = [(0, 12), (1, 13), (2, 14), (3, 15), (4, 8), (5, 9), (6, 10), (7, 11)] ∧
    ((flip_horizontally gray4x4
        = ((flip_horizontally_swaps gray4x4).foldlM
            (fun data p => swap data p.1 p.2) gray4x4.data).map
          (fun data => { gray4x4 with data := data }) ∧
      (∀ p ∈ flip_horizontally_swaps gray4x4,
        p.1 ≠ p.2 ∧ p.1 < gray4x4.width * gray4x4.height * gray4x4.colors_number
          ∧ p.2 < gray4x4.width * gray4x4.height * gray4x4.colors_number) ∧
      (flip_horizontally_swaps gray4x4).Pairwise disjoint_swaps) ∧
    (flip_vertically gray4x4
        = ((flip_vertically_swaps gray4x4).foldlM
            (fun data p => swap data p.1 p.2) gray4x4.data).map
          (fun data => { gray4x4 with data := data }) ∧
      (∀ p ∈ flip_vertically_swaps gray4x4,
        p.1 ≠ p.2 ∧ p.1 < gray4x4.width * gray4x4.height * gray4x4.colors_number
          ∧ p.2 < gray4x4.width * gray4x4.height * gray4x4.colors_number) ∧
      (flip_vertically_swaps gray4x4).Pairwise disjoint_swaps)) :=
  ⟨by decide, by decide, flips_swap_each_pair_once gray4x4 (by decide) (by decide)⟩

/-! ## Zooming by an arbitrary factor -/

/-- A fold that has a result has run the body of every element with a result. -/
theorem foldlM_some_of_mem {α σ : Type} (f : σ → α → Option σ) (ts : List α) :
    ∀ s out, ts.foldlM f s = some out → ∀ t ∈ ts, ∃ s1 s2, f s1 t = some s2 := by
  induction ts with
  | nil => intro s out _ t ht; simp at ht
  | cons a l ih =>
    intro s out h t ht
    rw [List.foldlM_cons] at h
    cases hfa : f s a with
    | none => rw [hfa] at h; simp at h
    | some s1 =>
      rw [hfa] at h
      rcases List.mem_cons.1 ht with rfl | ht
      · exact ⟨s, s1, hfa⟩
      · exact ih s1 out h t ht

/-- A copy with a result reads and writes inside the two arrays. -/
theorem copy_sample_some {data new_area out : List Nat} {src dst : Nat}
    (h : copy_sample data src dst new_area = some out) :
    src < data.length ∧ dst < new_area.length ∧ out.length = new_area.length := by
  unfold copy_sample at h
  cases hs : data[src]? with
  | none => rw [hs] at h; simp at h
  | some v =>
    rw [hs] at h
    simp only at h
    by_cases hd : dst < new_area.length
    · rw [if_pos hd] at h
      have : out = new_area.set dst v := by simpa using h.symm
      rw [this]
      exact ⟨(List.getElem?_eq_some.1 hs).1, hd, by simp⟩
    · rw [if_neg hd] at h; simp at h

/-- A sequence of copies with a result writes inside the destination array. -/
theorem copies_in_bounds {α : Type} (data : List Nat) (src dst : α → Nat) (ts : List α) :
    ∀ new_area out,
      ts.foldlM (fun acc t => copy_sample data (src t) (dst t) acc) new_area = some out →
      ∀ t ∈ ts, dst t < new_area.length := by
  induction ts with
  | nil => intro _ _ _ t ht; simp at ht
  | cons a l ih =>
    intro new_area out h t ht
    rw [List.foldlM_cons] at h
    cases hfa : copy_sample data (src a) (dst a) new_area with
    | none => rw [hfa] at h; simp at h
    | some s1 =>
      rw [hfa] at h
      obtain ⟨_, hd, hl⟩ := copy_sample_some hfa
      rcases List.mem_cons.1 ht with rfl | ht
      · exact hd
      · rw [← hl]; exact ih s1 out h t ht

/-- The destination offset of `zoom_in` is the exact offset in the zoomed
buffer, reduced once. -/
theorem zoom_dst_eq (row col d x y k cols cn : Nat) :
    u32 (u32 (u32 (u32 (u32 (u32 (u32 (row * k) + y) * cols) * k) * cn)
        + u32 (u32 (u32 (col * k) + x) * cn)) + d)
      = u32 ((row * k + y) * (cols * k) * cn + (col * k + x) * cn + d) := by
  simp only [u32_mul_left, u32_add_left, u32_add_right]
  have : (row * k + y) * cols * k * cn = (row * k + y) * (cols * k) * cn := by ring
  rw [this]

/-- What `zoom_in` does when the region has no columns or no rows: no sample
is copied and the result has no samples, for any factor. -/
theorem zoom_in_no_samples (img : image) (area : area2d) (k : Nat)
    (hdx : is_i32 (area.lower_right.x - area.upper_left.x))
    (hdy : is_i32 (area.lower_right.y - area.upper_left.y))
    (h0 : area.lower_right.x - area.upper_left.x = 0
      ∨ area.lower_right.y - area.upper_left.y = 0) :
    ∃ out, zoom_in img area k = some out ∧ out.data = []
      ∧ out.max_color_value = img.max_color_value := by
  unfold zoom_in
  rw [i32_sub_of_range hdx.1 hdx.2, i32_sub_of_range hdy.1 hdy.2]
  simp only [Option.some_bind]
  have z : toU32 0 = 0 := rfl
  rcases h0 with h | h
  · rw [h, z]
    have hs : ∀ (body : Nat → List Nat → Option (List Nat)) (acc : List Nat),
        forLoop 0 body acc = some acc := fun _ _ => rfl
    simp only [hs, forLoop_skip]
    simp [u32, update_image_data]
  · rw [h, z]
    simp [forLoop, u32, update_image_data]

/-- A factor for which `zoom_in` has a result on a region with rows and
columns is at most 65535, and the zoomed buffer has fewer than `2^32`
samples. -/
theorem zoom_in_some_bounds (img : image) (area : area2d) (k cols rows : Nat) (out : image)
    (hx : area.lower_right.x - area.upper_left.x = cols)
    (hy : area.lower_right.y - area.upper_left.y = rows)
    (hc31 : cols < 2 ^ 31) (hr31 : rows < 2 ^ 31)
    (hc0 : 0 < cols) (hr0 : 0 < rows) (hcn : 0 < img.colors_number)
    (h : zoom_in img area k = some out) :
    k ≤ 65535 ∧ cols * k * (rows * k) * img.colors_number < 2 ^ 32 := by
  have ex : i32_sub area.lower_right.x area.upper_left.x
      = some (area.lower_right.x - area.upper_left.x) :=
    i32_sub_of_range (by omega) (by omega)
  have ey : i32_sub area.lower_right.y area.upper_left.y
      = some (area.lower_right.y - area.upper_left.y) :=
    i32_sub_of_range (by omega) (by omega)
  have tx : toU32 (area.lower_right.x - area.upper_left.x) = cols := by
    rw [hx]; exact toU32_natCast (by omega)
  have ty : toU32 (area.lower_right.y - area.upper_left.y) = rows := by
    rw [hy]; exact toU32_natCast (by omega)
  unfold zoom_in at h
  rw [ex, ey] at h
  simp only [Option.some_bind] at h
  rw [tx, ty] at h
  obtain ⟨res, hres, _⟩ := Option.map_eq_some'.1 h
  have hk : k ≤ 65535 := by
    by_contra hk
    rw [forLoop3_eq] at hres
    obtain ⟨s1, s2, hbody⟩ := foldlM_some_of_mem _ _ _ _ hres (0, 0, 0)
      (mem_triples.2 ⟨hr0, hc0, hcn⟩)
    simp only [forLoopU16, if_neg hk] at hbody
    exact Option.noConfusion hbody
  refine ⟨hk, ?_⟩
  by_contra hbig
  simp only [forLoopU16, if_pos hk] at hres
  rw [forLoop5_eq] at hres
  have hb := copies_in_bounds img.data
    (fun q : (Nat × Nat × Nat) × (Nat × Nat) => image_point q.1.1 q.1.2.1 q.1.2.2 img)
    (fun q : (Nat × Nat × Nat) × (Nat × Nat) =>
      u32 (u32 (u32 (u32 (u32 (u32 (u32 (q.1.1 * k) + q.2.2) * cols) * k)
            * img.colors_number)
          + u32 (u32 (u32 (q.1.2.1 * k) + q.2.1) * img.colors_number)) + q.1.2.2))
    (quints rows cols img.colors_number k) _ _ hres
  rw [List.length_replicate] at hb
  have hS : u32 (u32 (u32 (u32 (cols * k) * rows) * k) * img.colors_number)
      < cols * k * (rows * k) * img.colors_number := by
    have := u32_lt (u32 (u32 (u32 (cols * k) * rows) * k) * img.colors_number)
    omega
  obtain ⟨R, C, d, hR, hC, hd, e⟩ := offset_surj hS
  have hk0 : 0 < k := by
    rcases Nat.eq_zero_or_pos k with h0 | h0
    · rw [h0] at hR; simp at hR
    · exact h0
  have hq : ((R / k, C / k, d), (C % k, R % k)) ∈ quints rows cols img.colors_number k :=
    mem_quints.2 ⟨(Nat.div_lt_iff_lt_mul hk0).2 hR, (Nat.div_lt_iff_lt_mul hk0).2 hC, hd,
      Nat.mod_lt _ hk0, Nat.mod_lt _ hk0⟩
  have h1 := hb _ hq
  simp only at h1
  rw [zoom_dst_eq, Nat.div_add_mod', Nat.div_add_mod', e,
    u32_of_lt (u32_lt _)] at h1
  exact lt_irrefl _ h1

/-- When every sample position of `b` holds a sample of `a`, every sample of
`b` is a sample of `a`. -/
theorem data_subset_of_samples {a b : image} (hwb : well_formed b) (hfb : fits b)
    (hs : ∀ r c d, r < b.height → c < b.width → d < b.colors_number →
      ∃ r2 c2 d2, sample b r c d = sample a r2 c2 d2) :
    ∀ v ∈ b.data, v ∈ a.data := by
  intro v hv
  obtain ⟨n, hn, e⟩ := List.getElem_of_mem hv
  have hn2 : n < b.width * b.height * b.colors_number := by
    unfold well_formed at hwb; omega
  obtain ⟨r, c, d, hr, hc, hd, e2⟩ := offset_surj hn2
  obtain ⟨r2, c2, d2, h1⟩ := hs r c d hr hc hd
  unfold sample at h1
  rw [(image_point_exact hfb hr hc hd).1, e2, List.getElem?_eq_getElem hn, e] at h1
  exact List.getElem?_mem h1.symm

theorem samples_from_of_subset {out img : image}
    (hm : out.max_color_value = img.max_color_value)
    (hs : ∀ v ∈ out.data, v ∈ img.data) : samples_from out img :=
  ⟨hs, fun hb v hv => by rw [hm]; exact hb v (hs v hv)⟩

/-- Whatever the factor, a result of `zoom_in` on a region no larger than a
well-formed buffer within the limits holds at `(R, C, d)` the sample of the
input at `(R / k, C / k, d)`, and all its samples are samples of the input. -/
theorem zoom_in_result (img : image) (area : area2d) (k cols rows : Nat) (out : image)
    (hw : well_formed img) (hl : within_limits img)
    (hx : area.lower_right.x - area.upper_left.x = cols)
    (hy : area.lower_right.y - area.upper_left.y = rows)
    (hcw : cols ≤ img.width) (hrh : rows ≤ img.height)
    (h : zoom_in img area k = some out) :
    out.max_color_value = img.max_color_value ∧
    (∀ R C d, R < rows * k → C < cols * k → d < img.colors_number →
      sample out R C d = sample img (R / k) (C / k) d) ∧
    (∀ v ∈ out.data, v ∈ img.data) := by
  have hf := within_limits_fits hl
  obtain ⟨hw500, hh500, hcn⟩ := hl
  unfold MAXIMUM_IMAGE_WIDTH at hw500
  unfold MAXIMUM_IMAGE_HEIGHT at hh500
  have hcn0 : 0 < img.colors_number := by omega
  by_cases hpos : 0 < cols ∧ 0 < rows
  · obtain ⟨hk, hout⟩ := zoom_in_some_bounds img area k cols rows out hx hy
      (by omega) (by omega) hpos.1 hpos.2 hcn0 h
    have hW : cols * k ≤ 500 * 65535 := Nat.mul_le_mul (by omega) hk
    have hH : rows * k ≤ 500 * 65535 := Nat.mul_le_mul (by omega) hk
    obtain ⟨o, e, ew, eh, ec, em, el, hs⟩ := zoom_in_spec img area k cols rows
      hw hf hx hy hcw hrh hk (by omega) (by omega) (by omega) (by omega) hout
    rw [e] at h
    have ho : o = out := Option.some.inj h
    subst ho
    refine ⟨em, hs, ?_⟩
    apply data_subset_of_samples el
      (by unfold fits; rw [ew, eh, ec]; exact hout)
    intro r c d hr hc hd
    exact ⟨r / k, c / k, d,
      hs r c d (by rw [← eh]; exact hr) (by rw [← ew]; exact hc) (by rw [← ec]; exact hd)⟩
  · have h0 : area.lower_right.x - area.upper_left.x = 0
        ∨ area.lower_right.y - area.upper_left.y = 0 := by omega
    obtain ⟨o, e, ed, em⟩ := zoom_in_no_samples img area k
      ⟨by omega, by omega⟩ ⟨by omega, by omega⟩ h0
    rw [e] at h
    have ho : o = out := Option.some.inj h
    subst ho
    refine ⟨em, ?_, ?_⟩
    · intro R C d hR hC _
      have : cols = 0 ∨ rows = 0 := by omega
      rcases this with z | z
      · rw [z] at hC; simp at hC
      · rw [z] at hR; simp at hR
    · intro v hv
      rw [ed] at hv
      simp at hv

/-- The existence of the result of `zoom_in` for a buffer within the limits
whose dimensions are those of the region, when the zoomed buffer stays within
500 by 500. -/
theorem zoom_in_returns (img : image) (area : area2d) (k : Nat)
    (hw : well_formed img) (hl : within_limits img)
    (hx : area.lower_right.x - area.upper_left.x = img.width)
    (hy : area.lower_right.y - area.upper_left.y = img.height)
    (hkw : k * img.width ≤ 500) (hkh : k * img.height ≤ 500) :
    ∃ out, zoom_in img area k = some out := by
  have hf := within_limits_fits hl
  obtain ⟨hw500, hh500, hcn⟩ := hl
  unfold MAXIMUM_IMAGE_WIDTH at hw500
  unfold MAXIMUM_IMAGE_HEIGHT at hh500
  by_cases hz : img.width = 0 ∨ img.height = 0
  · obtain ⟨o, e, _, _⟩ := zoom_in_no_samples img area k
      ⟨by omega, by omega⟩ ⟨by omega, by omega⟩ (by omega)
    exact ⟨o, e⟩
  · have hk500 : k ≤ 500 := by
      have : k * 1 ≤ k * img.width := Nat.mul_le_mul_left _ (by omega)
      omega
    have hkw2 : img.width * k ≤ 500 := by rw [Nat.mul_comm]; exact hkw
    have hkh2 : img.height * k ≤ 500 := by rw [Nat.mul_comm]; exact hkh
    have hout : img.width * k * (img.height * k) * img.colors_number < 2 ^ 32 := by
      have h1 : img.width * k * (img.height * k) ≤ 500 * 500 := Nat.mul_le_mul hkw2 hkh2
      rcases hcn with hc | hc <;> rw [hc] <;> omega
    obtain ⟨out, e, _⟩ := zoom_in_spec img area k img.width img.height
      hw hf hx hy (le_refl _) (le_refl _) (by omega) (by omega) (by omega) (by omega)
      (by omega) hout
    exact ⟨out, e⟩

/-- C15: no transform synthesizes a sample value.  For a well-formed buffer
within the limits of the loader, `flip_horizontally`, `flip_vertically` and
`cut_area` (region inside the buffer with `upper_left <= lower_right`) return
a buffer all of whose samples are samples of the input; every buffer that
`zoom_in` returns (buffer dimensions equal to those of the region, factor at
least 1) has only samples of the input, and `zoom_in` does return a buffer
when the zoomed dimensions stay within 500 by 500.  Hence samples bounded by
`max_color_value` stay bounded by it. -/
theorem transforms_never_synthesize (img : image)
    (hw : well_formed img) (hl : within_limits img) :
    (∃ out, flip_horizontally img = some out ∧ samples_from out img) ∧
    (∃ out, flip_vertically img = some out ∧ samples_from out img) ∧
    (∀ area : area2d,
      0 ≤ area.upper_left.x → area.upper_left.x ≤ area.lower_right.x →
      area.lower_right.x ≤ img.width →
      0 ≤ area.upper_left.y → area.upper_left.y ≤ area.lower_right.y →
      area.lower_right.y ≤ img.height →
      ∃ out, cut_area img area = some out ∧ samples_from out img) ∧
    (∀ (area : area2d) (k : Nat),
      area.lower_right.x - area.upper_left.x = img.width →
      area.lower_right.y - area.upper_left.y = img.height →
      1 ≤ k →
      (∀ out, zoom_in img area k = some out → samples_from out img) ∧
      (k * img.width ≤ 500 → k * img.height ≤ 500 →
        ∃ out, zoom_in img area k = some out)) := by
  have hf := within_limits_fits hl
  refine ⟨?_, ?_, ?_, ?_⟩
  · obtain ⟨out, e, ew, eh, ec, em, el, hs⟩ := flip_horizontally_spec img hw hf
    refine ⟨out, e, samples_from_of_subset em ?_⟩
    apply data_subset_of_samples (well_formed_of_same_shape hw el ew eh ec)
      (fits_of_same_shape hf ew eh ec)
    intro r c d hr hc hd
    exact ⟨r, img.width - 1 - c, d,
      hs r c d (by rw [← eh]; exact hr) (by rw [← ew]; exact hc) (by rw [← ec]; exact hd)⟩
  · obtain ⟨out, e, ew, eh, ec, em, el, hs⟩ := flip_vertically_spec img hw hf
    refine ⟨out, e, samples_from_of_subset em ?_⟩
    apply data_subset_of_samples (well_formed_of_same_shape hw el ew eh ec)
      (fits_of_same_shape hf ew eh ec)
    intro r c d hr hc hd
    exact ⟨img.height - 1 - r, c, d,
      hs r c d (by rw [← eh]; exact hr) (by rw [← ew]; exact hc) (by rw [← ec]; exact hd)⟩
  · intro area hx0 hx1 hx2 hy0 hy1 hy2
    obtain ⟨out, e, ew, eh, ec, em, el, hs⟩ := cut_area_spec img area hw hl
      hx0 hx1 hx2 hy0 hy1 hy2
    refine ⟨out, e, samples_from_of_subset em ?_⟩
    have hlo : within_limits out := by
      obtain ⟨hw500, hh500, hcn⟩ := hl
      unfold within_limits
      unfold MAXIMUM_IMAGE_WIDTH at hw500 ⊢
      unfold MAXIMUM_IMAGE_HEIGHT at hh500 ⊢
      exact ⟨by omega, by omega, by rw [ec]; exact hcn⟩
    apply data_subset_of_samples el (within_limits_fits hlo)
    intro r c d hr hc hd
    exact ⟨_, _, d, hs r c d hr hc (by rw [← ec]; exact hd)⟩
  · intro area k hx hy _
    constructor
    · intro out h
      obtain ⟨em, _, hm⟩ := zoom_in_result img area k img.width img.height out hw hl
        hx hy (le_refl _) (le_refl _) h
      exact samples_from_of_subset em hm
    · intro hkw hkh
      exact zoom_in_returns img area k hw hl hx hy hkw hkh

/-- C15 at the 4x4 buffer `0..15`. -/
theorem transforms_never_synthesize_witness :
    (∃ out, flip_horizontally gray4x4 = some out ∧ samples_from out gray4x4) ∧
    (∃ out, flip_vertically gray4x4 = some out ∧ samples_from out gray4x4) ∧
    (∀ area : area2d,
      0 ≤ area.upper_left.x → area.upper_left.x ≤ area.lower_right.x →
      area.lower_right.x ≤ gray4x4.width →
      0 ≤ area.upper_left.y → area.upper_left.y ≤ area.lower_right.y →
      area.lower_right.y ≤ gray4x4.height →
      ∃ out, cut_area gray4x4 area = some out ∧ samples_from out gray4x4) ∧
    (∀ (area : area2d) (k : Nat),
      area.lower_right.x - area.upper_left.x = gray4x4.width →
      area.lower_right.y - area.upper_left.y = gray4x4.height →
      1 ≤ k →
      (∀ out, zoom_in gray4x4 area k = some out → samples_from out gray4x4) ∧
      (k * gray4x4.width ≤ 500 → k * gray4x4.height ≤ 500 →
        ∃ out, zoom_in gray4x4 area k = some out)) :=
  transforms_never_synthesize gray4x4 (by decide) (by decide)

/-- C17: `zoom_in` uses the region purely for sizing.  For a well-formed
buffer of valid shape, a factor `k >= 1` and a region with
`columns = lower_right.x - upper_left.x <= width` and
`rows = lower_right.y - upper_left.y <= height`: every buffer that `zoom_in`
returns holds at `(R, C, ch)`, for `R < rows * k` and `C < columns * k`, the
sample of the input at the local position `(R / k, C / k, ch)`, read with the
input's own width; `zoom_in` returns such a buffer, of width `k * columns`
and height `k * rows`, when these stay within 500; and a second region with
the same columns and rows gives the same result for the same buffer and
factor. -/
theorem zoom_in_region_only_sizes (img : image) (area : area2d) (k cols rows : Nat)
    (hw : well_formed img) (hv : valid_shape img)
    (hx : area.lower_right.x - area.upper_left.x = cols)
    (hy : area.lower_right.y - area.upper_left.y = rows)
    (hcw : cols ≤ img.width) (hrh : rows ≤ img.height) (hk : 1 ≤ k) :
    (∀ out, zoom_in img area k = some out →
      ∀ R C ch, R < rows * k → C < cols * k → ch < img.colors_number →
        ∃ v, sample out R C ch = some v ∧ sample img (R / k) (C / k) ch = some v) ∧
    (k * cols ≤ 500 → k * rows ≤ 500 →
      ∃ out, zoom_in img area k = some out ∧
        out.width = k * cols ∧ out.height = k * rows) ∧
    (∀ other : area2d,
      other.lower_right.x - other.upper_left.x
        = area.lower_right.x - area.upper_left.x →
      other.lower_right.y - other.upper_left.y
        = area.lower_right.y - area.upper_left.y →
      zoom_in img other k = zoom_in img area k) := by
  have hf := valid_shape_fits hv
  have hl := valid_shape_within_limits hv
  obtain ⟨_, hw500, _, hh500, hcn⟩ := hv
  unfold MAXIMUM_IMAGE_WIDTH at hw500
  unfold MAXIMUM_IMAGE_HEIGHT at hh500
  have hk0 : 0 < k := hk
  refine ⟨?_, ?_, ?_⟩
  · intro out h R C ch hR hC hch
    obtain ⟨_, hs, _⟩ := zoom_in_result img area k cols rows out hw hl hx hy hcw hrh h
    have hRk : R / k < rows := (Nat.div_lt_iff_lt_mul hk0).2 hR
    have hCk : C / k < cols := (Nat.div_lt_iff_lt_mul hk0).2 hC
    obtain ⟨v, hv⟩ := sample_some hw hf (show R / k < img.height by omega)
      (show C / k < img.width by omega) hch
    exact ⟨v, by rw [hs R C ch hR hC hch]; exact hv, hv⟩
  · intro hkw hkh
    by_cases hz : cols = 0 ∧ rows = 0
    · obtain ⟨z1, z2⟩ := hz
      rw [z1] at hx ⊢
      rw [z2] at hy ⊢
      exact ⟨update_image_data img [] 0 0,
        zoom_in_empty img area k (by simpa using hx) (by simpa using hy), rfl, rfl⟩
    · have hk500 : k ≤ 500 := by
        rcases Nat.eq_zero_or_pos cols with h0 | h0
        · have h1 : 0 < rows := by omega
          have : k * 1 ≤ k * rows := Nat.mul_le_mul_left _ h1
          omega
        · have : k * 1 ≤ k * cols := Nat.mul_le_mul_left _ h0
          omega
      have hkw2 : cols * k ≤ 500 := by rw [Nat.mul_comm]; exact hkw
      have hkh2 : rows * k ≤ 500 := by rw [Nat.mul_comm]; exact hkh
      have hout : cols * k * (rows * k) * img.colors_number < 2 ^ 32 := by
        have h1 : cols * k * (rows * k) ≤ 500 * 500 := Nat.mul_le_mul hkw2 hkh2
        rcases hcn with hc | hc <;> rw [hc] <;> omega
      obtain ⟨out, e, ew, eh, _⟩ := zoom_in_spec img area k cols rows
        hw hf hx hy hcw hrh (by omega) (by omega) (by omega) (by omega) (by omega) hout
      exact ⟨out, e, by rw [ew, Nat.mul_comm], by rw [eh, Nat.mul_comm]⟩
  · intro other ox oy
    have h1 : i32_sub other.lower_right.x other.upper_left.x
        = i32_sub area.lower_right.x area.upper_left.x := by
      unfold i32_sub; rw [ox]
    have h2 : i32_sub other.lower_right.y other.upper_left.y
        = i32_sub area.lower_right.y area.upper_left.y := by
      unfold i32_sub; rw [oy]
    unfold zoom_in
    rw [h1, h2]

/-- C17 at the 4x4 buffer `0..15`, the factor 2 and the regions `(1,1)-(3,3)`
and `(0,0)-(2,2)`: both give the zoomed top-left 2x2 rectangle `[0,1,4,5]`. -/
theorem zoom_in_region_only_sizes_witness :
    (zoom_in gray4x4 area_1133 2).map image.data
      = some [0, 0, 1, 1, 0, 0, 1, 1, 4, 4, 5, 5, 4, 4, 5, 5] ∧
    zoom_in gray4x4 area_0022 2 = zoom_in gray4x4 area_1133 2 ∧
    ((∀ out, zoom_in gray4x4 area_1133 2 = some out →
      ∀ R C ch, R < 2 * 2 → C < 2 * 2 → ch < gray4x4.colors_number →
        ∃ v, sample out R C ch = some v ∧ sample gray4x4 (R / 2) (C / 2) ch = some v) ∧
    (2 * 2 ≤ 500 → 2 * 2 ≤ 500 →
      ∃ out, zoom_in gray4x4 area_1133 2 = some out ∧
        out.width = 2 * 2 ∧ out.height = 2 * 2) ∧
    (∀ other : area2d,
      other.lower_right.x - other.upper_left.x
        = area_1133.lower_right.x - area_1133.upper_left.x →
      other.lower_right.y - other.upper_left.y
        = area_1133.lower_right.y - area_1133.upper_left.y →
      zoom_in gray4x4 other 2 = zoom_in gray4x4 area_1133 2)) :=
  ⟨by decide, by decide, zoom_in_region_only_sizes gray4x4 area_1133 2 2 2
    (by decide) (by decide) (by decide) (by decide) (by decide) (by decide) (by decide)⟩

end Daisy
